import Mathlib

/-!
Verification development for the Hex game repository.

Shallow embedding of:
- `graph.hpp`   : generic adjacency-list graph (`Edge`, `Vertex`, `Graph`);
- `hexboard.hpp`: the hex board (`HexBoard`), its builder `reset_board`,
  the move operation `play` and the color-aware DFS `is_victory`;
- the Monte Carlo AI player (`simulate` and the selection loop of
  `AIMonteCarloPlayer::play`).

Imperative code is embedded by explicit state passing; C++ `unsigned`
conversions are modelled with `% 2^32`; accessors whose C++ versions
assert on invalid indices return `Option` (an assertion failure aborts the
process, so theorems about runs that return carry in-range hypotheses).
-/

/-- Color labels of board vertices (`enum class Color` in hexboard.hpp). -/
inductive Color where
  | BLUE | RED | GRAY | WHITE
deriving DecidableEq, Repr

/-- Outcomes of one play (`enum class Outcome` in hexboard.hpp). -/
inductive Outcome where
  | OCC_ERROR | OOB_ERROR | NO_WIN | P1_WIN | P2_WIN
deriving DecidableEq, Repr

/-- Replace the element at position `n` by `f` applied to it; out-of-range
positions leave the list unchanged (C++ `vlist[x] = ...` on a valid index). -/
def updAt : List α → Nat → (α → α) → List α
  | [], _, _ => []
  | x :: xs, 0, f => f x :: xs
  | x :: xs, n + 1, f => x :: updAt xs n f

theorem length_updAt (l : List α) (n : Nat) (f : α → α) :
    (updAt l n f).length = l.length := by
  induction l generalizing n with
  | nil => rfl
  | cons x xs ih => cases n with
    | zero => rfl
    | succ m => simp [updAt, ih]

theorem get?_updAt_ne (l : List α) (n : Nat) (f : α → α) (m : Nat) (h : m ≠ n) :
    (updAt l n f).get? m = l.get? m := by
  induction l generalizing n m with
  | nil => rfl
  | cons x xs ih =>
    cases n with
    | zero => cases m with
      | zero => exact absurd rfl h
      | succ k => rfl
    | succ n' => cases m with
      | zero => rfl
      | succ k => simpa [updAt] using ih n' k (by omega)

theorem get?_updAt_self (l : List α) (n : Nat) (f : α → α) (h : n < l.length) :
    (updAt l n f).get? n = (l.get? n).map f := by
  induction l generalizing n with
  | nil => simp at h
  | cons x xs ih =>
    cases n with
    | zero => simp [updAt]
    | succ n' => simpa [updAt] using ih n' (by simpa using h)

/-- One adjacency-list entry (`struct Edge` in graph.hpp): a neighbor id
and a generic value. -/
structure Edge (β : Type) where
  neigh : Nat
  val : β
deriving DecidableEq, Repr

/-- A vertex (`class Vertex` in graph.hpp): a key and its adjacency list. -/
structure Vertex (α β : Type) where
  key : α
  elist : List (Edge β)
deriving DecidableEq, Repr

/-- `Vertex::find`: index of the first entry for `neigh`, `none` if absent
(the C++ version returns `-1` then). -/
def Vertex.find? (v : Vertex α β) (neigh : Nat) : Option Nat :=
  v.elist.findIdx? (fun e => e.neigh == neigh)

/-- `Vertex::add`: append an edge entry. -/
def Vertex.add (v : Vertex α β) (neigh : Nat) (weight : β) : Vertex α β :=
  { v with elist := v.elist ++ [⟨neigh, weight⟩] }

/-- `Vertex::is_adjacent`: whether some entry matches `neigh`. -/
def Vertex.is_adjacent (v : Vertex α β) (neigh : Nat) : Bool :=
  v.elist.any (fun e => e.neigh == neigh)

/-- `Vertex::get_weight`: value of the first entry for `neigh`; the C++
version asserts that the edge exists, so absence is `none`. -/
def Vertex.get_weight (v : Vertex α β) (neigh : Nat) : Option β :=
  (v.elist.find? (fun e => e.neigh == neigh)).map Edge.val

/-- Update the value of the first entry for `n` in an edge list. -/
def setW : List (Edge β) → Nat → β → List (Edge β)
  | [], _, _ => []
  | e :: es, n, w =>
    if e.neigh = n then { e with val := w } :: es else e :: setW es n w

/-- `Vertex::set_weight`: overwrite the value of the first entry for
`neigh` (the C++ version asserts that the edge exists). -/
def Vertex.set_weight (v : Vertex α β) (neigh : Nat) (weight : β) : Vertex α β :=
  { v with elist := setW v.elist neigh weight }

/-- `Vertex::get_neighbors`: the neighbor ids in insertion order. -/
def Vertex.neighbors (v : Vertex α β) : List Nat :=
  v.elist.map Edge.neigh

/-- The graph ADT (`class Graph` in graph.hpp): an edge counter and the
vertex list. -/
structure Graph (α β : Type) where
  nedges : Nat
  vlist : List (Vertex α β)
deriving DecidableEq, Repr

/-- The default-constructed graph (`Graph(): nedges(0)`). -/
def Graph.empty : Graph α β := ⟨0, []⟩

/-- `Graph::get_nodes`. -/
def Graph.get_nodes (g : Graph α β) : Nat := g.vlist.length

/-- `Graph::get_edges`. -/
def Graph.get_edges (g : Graph α β) : Nat := g.nedges

/-- `Graph::is_adjacent` (the C++ version asserts the indices are valid). -/
def Graph.is_adjacent (g : Graph α β) (x y : Nat) : Bool :=
  match g.vlist.get? x with
  | some v => v.is_adjacent y
  | none => false

/-- `Graph::get_edge_weight` (asserts in C++ that indices and edge exist). -/
def Graph.get_edge_weight (g : Graph α β) (x y : Nat) : Option β :=
  match g.vlist.get? x with
  | some v => v.get_weight y
  | none => none

/-- `Graph::get_vertex_key` (asserts in C++ that the index is valid). -/
def Graph.get_vertex_key (g : Graph α β) (x : Nat) : Option α :=
  (g.vlist.get? x).map Vertex.key

/-- `Graph::get_neighbors`: neighbor ids of `v` in edge-insertion order. -/
def Graph.get_neighbors (g : Graph α β) (x : Nat) : List Nat :=
  match g.vlist.get? x with
  | some v => v.neighbors
  | none => []

/-- `Graph::add_vertex`: append a vertex with the given key. -/
def Graph.add_vertex (g : Graph α β) (key : α) : Graph α β :=
  { g with vlist := g.vlist ++ [⟨key, []⟩] }

/-- `Graph::set_edge_weight`: overwrite the weight on both endpoints. -/
def Graph.set_edge_weight (g : Graph α β) (x y : Nat) (weight : β) : Graph α β :=
  let l := updAt (updAt g.vlist x (fun v => v.set_weight y weight)) y
    (fun v => v.set_weight x weight)
  { g with vlist := l }

/-- `Graph::add_edge`: if the edge exists, update its weight in place;
otherwise append it to both adjacency lists and bump the edge counter. -/
def Graph.add_edge (g : Graph α β) (x y : Nat) (weight : β) : Graph α β :=
  if g.is_adjacent x y then g.set_edge_weight x y weight
  else
    let l := updAt (updAt g.vlist x (fun v => v.add y weight)) y
      (fun v => v.add x weight)
    { nedges := g.nedges + 1, vlist := l }

/-- `Graph::set_vertex_key`. -/
def Graph.set_vertex_key (g : Graph α β) (x : Nat) (key : α) : Graph α β :=
  { g with vlist := updAt g.vlist x (fun v => { v with key := key }) }

/-- `Graph::clear`: drop all vertices (the edge counter is not reset). -/
def Graph.clear (g : Graph α β) : Graph α β := { g with vlist := [] }

theorem get?_updAt_self' (l : List α) (n : Nat) (f : α → α) :
    (updAt l n f).get? n = (l.get? n).map f := by
  induction l generalizing n with
  | nil => simp [updAt]
  | cons x xs ih =>
    cases n with
    | zero => simp [updAt]
    | succ n' => simpa [updAt] using ih n'

theorem setW_map_neigh (l : List (Edge β)) (n : Nat) (w : β) :
    (setW l n w).map Edge.neigh = l.map Edge.neigh := by
  induction l with
  | nil => rfl
  | cons e es ih =>
    by_cases h : e.neigh = n <;> simp [setW, h, ih]

theorem neighbors_set_weight (v : Vertex α β) (n : Nat) (w : β) :
    (v.set_weight n w).neighbors = v.neighbors := by
  simp [Vertex.set_weight, Vertex.neighbors, setW_map_neigh]

theorem get_weight_setW (l : List (Edge β)) (n : Nat) (w : β)
    (h : n ∈ l.map Edge.neigh) :
    ((setW l n w).find? (fun e => e.neigh == n)).map Edge.val = some w := by
  induction l with
  | nil => simp at h
  | cons e es ih =>
    by_cases he : e.neigh = n
    · simp [setW, he, List.find?]
    · have : n ∈ es.map Edge.neigh := by
        simp at h; rcases h with h | h
        · exact absurd h.symm he
        · simpa using h
      simpa [setW, he, List.find?_cons, beq_iff_eq] using ih this

theorem get_weight_set_weight (v : Vertex α β) (n : Nat) (w : β)
    (h : n ∈ v.neighbors) : (v.set_weight n w).get_weight n = some w := by
  simpa [Vertex.set_weight, Vertex.get_weight] using
    get_weight_setW v.elist n w (by simpa [Vertex.neighbors] using h)

theorem get_weight_add_fresh (v : Vertex α β) (n : Nat) (w : β)
    (h : n ∉ v.neighbors) : (v.add n w).get_weight n = some w := by
  have hfind : v.elist.find? (fun e => e.neigh == n) = none := by
    rw [List.find?_eq_none]
    intro e he
    simp only [beq_iff_eq]
    intro hbeq
    exact h (by unfold Vertex.neighbors; exact List.mem_map.mpr ⟨e, he, hbeq⟩)
  simp [Vertex.add, Vertex.get_weight, List.find?_append, hfind]

theorem neighbors_add (v : Vertex α β) (n : Nat) (w : β) :
    (v.add n w).neighbors = v.neighbors ++ [n] := by
  simp [Vertex.add, Vertex.neighbors]

theorem is_adjacent_iff_mem (g : Graph α β) (x y : Nat) :
    g.is_adjacent x y = true ↔ y ∈ g.get_neighbors x := by
  unfold Graph.is_adjacent Graph.get_neighbors
  cases g.vlist.get? x with
  | none => simp
  | some v =>
    simp [Vertex.is_adjacent, Vertex.neighbors, List.any_eq_true]

theorem get_neighbors_set_edge_weight (g : Graph α β) (x y : Nat) (w : β)
    (i : Nat) : (g.set_edge_weight x y w).get_neighbors i = g.get_neighbors i := by
  unfold Graph.set_edge_weight Graph.get_neighbors
  by_cases hiy : i = y
  · subst hiy
    rw [get?_updAt_self']
    by_cases hix : i = x
    · subst hix
      rw [get?_updAt_self']
      cases g.vlist.get? i <;> simp [neighbors_set_weight]
    · rw [get?_updAt_ne _ _ _ _ hix]
      cases g.vlist.get? i <;> simp [neighbors_set_weight]
  · rw [get?_updAt_ne _ _ _ _ hiy]
    by_cases hix : i = x
    · subst hix
      rw [get?_updAt_self']
      cases g.vlist.get? i <;> simp [neighbors_set_weight]
    · rw [get?_updAt_ne _ _ _ _ hix]

theorem get_edges_set_edge_weight (g : Graph α β) (x y : Nat) (w : β) :
    (g.set_edge_weight x y w).get_edges = g.get_edges := rfl

theorem get_edge_weight_set_edge_weight_self (g : Graph α β) (x y : Nat) (w : β)
    (hxy : x ≠ y) (h : y ∈ g.get_neighbors x) :
    (g.set_edge_weight x y w).get_edge_weight x y = some w := by
  unfold Graph.set_edge_weight Graph.get_edge_weight
  rw [get?_updAt_ne _ _ _ _ hxy, get?_updAt_self']
  unfold Graph.get_neighbors at h
  cases hg : g.vlist.get? x with
  | none => rw [hg] at h; simp at h
  | some v =>
    rw [hg] at h
    simp only [Option.map_some']
    exact get_weight_set_weight v y w (by simpa using h)

theorem get_edge_weight_set_edge_weight_symm (g : Graph α β) (x y : Nat) (w : β)
    (hxy : x ≠ y) (h : x ∈ g.get_neighbors y) :
    (g.set_edge_weight x y w).get_edge_weight y x = some w := by
  unfold Graph.set_edge_weight Graph.get_edge_weight
  rw [get?_updAt_self', get?_updAt_ne _ _ _ _ (Ne.symm hxy)]
  unfold Graph.get_neighbors at h
  cases hg : g.vlist.get? y with
  | none => rw [hg] at h; simp at h
  | some v =>
    rw [hg] at h
    simp only [Option.map_some']
    exact get_weight_set_weight v x w (by simpa using h)

theorem get_neighbors_add_edge_fresh_self (g : Graph α β) (x y : Nat) (w : β)
    (hx : x < g.get_nodes) (hxy : x ≠ y) (hadj : g.is_adjacent x y = false) :
    (g.add_edge x y w).get_neighbors x = g.get_neighbors x ++ [y] := by
  unfold Graph.add_edge
  rw [hadj]
  simp only [Bool.false_eq_true, if_false]
  unfold Graph.get_neighbors
  rw [get?_updAt_ne _ _ _ _ hxy, get?_updAt_self']
  cases hg : g.vlist.get? x with
  | none => exact absurd (List.get?_eq_none.mp hg) (by simpa [Graph.get_nodes] using hx)
  | some v => simp [neighbors_add]

theorem get_neighbors_add_edge_fresh_symm (g : Graph α β) (x y : Nat) (w : β)
    (hy : y < g.get_nodes) (hxy : x ≠ y) (hadj : g.is_adjacent x y = false) :
    (g.add_edge x y w).get_neighbors y = g.get_neighbors y ++ [x] := by
  unfold Graph.add_edge
  rw [hadj]
  simp only [Bool.false_eq_true, if_false]
  unfold Graph.get_neighbors
  rw [get?_updAt_self', get?_updAt_ne _ _ _ _ (Ne.symm hxy)]
  cases hg : g.vlist.get? y with
  | none => exact absurd (List.get?_eq_none.mp hg) (by simpa [Graph.get_nodes] using hy)
  | some v => simp [neighbors_add]

theorem add_edge_eq_set_of_adjacent (g : Graph α β) (x y : Nat) (w : β)
    (h : g.is_adjacent x y = true) : g.add_edge x y w = g.set_edge_weight x y w := by
  unfold Graph.add_edge; rw [if_pos h]

theorem count_neighbors_add_edge_again (g : Graph α β) (x y : Nat) (w1 w2 : β)
    (hx : x < g.get_nodes) (hy : y < g.get_nodes) (hxy : x ≠ y)
    (hcxy : (g.get_neighbors x).count y ≤ 1)
    (hcyx : (g.get_neighbors y).count x ≤ 1)
    (hsym : y ∈ g.get_neighbors x ↔ x ∈ g.get_neighbors y) :
    (((g.add_edge x y w1).add_edge x y w2).get_neighbors x).count y = 1 ∧
    (((g.add_edge x y w1).add_edge x y w2).get_neighbors y).count x = 1 ∧
    ((g.add_edge x y w1).add_edge x y w2).get_edge_weight x y = some w2 ∧
    ((g.add_edge x y w1).add_edge x y w2).get_edge_weight y x = some w2 ∧
    ((g.add_edge x y w1).add_edge x y w2).get_edges = (g.add_edge x y w1).get_edges := by
  by_cases hadj : g.is_adjacent x y = true
  · -- the edge already existed: both calls only overwrite the weight
    have hmemx : y ∈ g.get_neighbors x := (is_adjacent_iff_mem g x y).mp hadj
    have hmemy : x ∈ g.get_neighbors y := hsym.mp hmemx
    have hg1 : g.add_edge x y w1 = g.set_edge_weight x y w1 :=
      add_edge_eq_set_of_adjacent g x y w1 hadj
    have hn1x : (g.add_edge x y w1).get_neighbors x = g.get_neighbors x := by
      rw [hg1]; exact get_neighbors_set_edge_weight g x y w1 x
    have hn1y : (g.add_edge x y w1).get_neighbors y = g.get_neighbors y := by
      rw [hg1]; exact get_neighbors_set_edge_weight g x y w1 y
    have hadj1 : (g.add_edge x y w1).is_adjacent x y = true := by
      rw [is_adjacent_iff_mem, hn1x]; exact hmemx
    have hg2 : (g.add_edge x y w1).add_edge x y w2 =
        (g.add_edge x y w1).set_edge_weight x y w2 :=
      add_edge_eq_set_of_adjacent _ x y w2 hadj1
    have hn2x : ((g.add_edge x y w1).add_edge x y w2).get_neighbors x =
        g.get_neighbors x := by
      rw [hg2, get_neighbors_set_edge_weight, hn1x]
    have hn2y : ((g.add_edge x y w1).add_edge x y w2).get_neighbors y =
        g.get_neighbors y := by
      rw [hg2, get_neighbors_set_edge_weight, hn1y]
    refine ⟨?_, ?_, ?_, ?_, ?_⟩
    · rw [hn2x]
      have := List.count_pos_iff.mpr hmemx
      omega
    · rw [hn2y]
      have := List.count_pos_iff.mpr hmemy
      omega
    · rw [hg2]
      exact get_edge_weight_set_edge_weight_self _ x y w2 hxy (by rw [hn1x]; exact hmemx)
    · rw [hg2]
      exact get_edge_weight_set_edge_weight_symm _ x y w2 hxy (by rw [hn1y]; exact hmemy)
    · rw [hg2]; exact get_edges_set_edge_weight _ x y w2
  · -- fresh edge: first call appends it on both sides, second call updates it
    have hadjF : g.is_adjacent x y = false := by simpa using hadj
    have hnmx : y ∉ g.get_neighbors x := fun hmem =>
      hadj ((is_adjacent_iff_mem g x y).mpr hmem)
    have hnmy : x ∉ g.get_neighbors y := fun hmem => hnmx (hsym.mpr hmem)
    have hn1x : (g.add_edge x y w1).get_neighbors x = g.get_neighbors x ++ [y] :=
      get_neighbors_add_edge_fresh_self g x y w1 hx hxy hadjF
    have hn1y : (g.add_edge x y w1).get_neighbors y = g.get_neighbors y ++ [x] :=
      get_neighbors_add_edge_fresh_symm g x y w1 hy hxy hadjF
    have hmem1x : y ∈ (g.add_edge x y w1).get_neighbors x := by
      rw [hn1x]; simp
    have hmem1y : x ∈ (g.add_edge x y w1).get_neighbors y := by
      rw [hn1y]; simp
    have hadj1 : (g.add_edge x y w1).is_adjacent x y = true :=
      (is_adjacent_iff_mem _ x y).mpr hmem1x
    have hg2 : (g.add_edge x y w1).add_edge x y w2 =
        (g.add_edge x y w1).set_edge_weight x y w2 :=
      add_edge_eq_set_of_adjacent _ x y w2 hadj1
    have hn2x : ((g.add_edge x y w1).add_edge x y w2).get_neighbors x =
        g.get_neighbors x ++ [y] := by
      rw [hg2, get_neighbors_set_edge_weight, hn1x]
    have hn2y : ((g.add_edge x y w1).add_edge x y w2).get_neighbors y =
        g.get_neighbors y ++ [x] := by
      rw [hg2, get_neighbors_set_edge_weight, hn1y]
    refine ⟨?_, ?_, ?_, ?_, ?_⟩
    · rw [hn2x, List.count_append, List.count_eq_zero_of_not_mem hnmx]
      simp
    · rw [hn2y, List.count_append, List.count_eq_zero_of_not_mem hnmy]
      simp
    · rw [hg2]
      exact get_edge_weight_set_edge_weight_self _ x y w2 hxy hmem1x
    · rw [hg2]
      exact get_edge_weight_set_edge_weight_symm _ x y w2 hxy hmem1y
    · rw [hg2]; exact get_edges_set_edge_weight _ x y w2

/-- Two-vertex graph used to instantiate the edge-insertion theorem. -/
def c7Graph : Graph Color Int := (Graph.empty.add_vertex Color.WHITE).add_vertex Color.WHITE

/-- One-vertex graph used for the self-loop counterexample. -/
def c7LoopGraph : Graph Color Int := Graph.empty.add_vertex Color.WHITE

/-- Claim C7 as frozen is false for the pair x = y: on a one-vertex graph,
`add_edge(0,0,w1)` appends two entries for neighbor 0 to vertex 0's
adjacency list (one per endpoint of the loop), and the second call only
updates the first of them, so two edges between 0 and 0 remain. -/
theorem c7_counterexample :
    (((c7LoopGraph.add_edge 0 0 1).add_edge 0 0 2).get_neighbors 0).count 0 = 2 ∧
    ((c7LoopGraph.add_edge 0 0 1).add_edge 0 0 2).get_edge_weight 0 0 = some 2 := by
  decide

/-- Claim C7 (amended): for every graph and every pair of DISTINCT valid
vertex indices x and y whose two adjacency lists satisfy the invariant the
Graph API maintains for distinct pairs (at most one entry each way, and an
entry on one side exactly when there is one on the other), calling
`add_edge(x,y,w1)` and then `add_edge(x,y,w2)` leaves exactly one edge
between x and y, that edge has weight w2 queried from either endpoint, and
the edge count is unchanged by the second call. -/
theorem c7_add_edge_idempotent (g : Graph Color Int) (x y : Nat) (w1 w2 : Int)
    (hx : x < g.get_nodes) (hy : y < g.get_nodes) (hxy : x ≠ y)
    (hcxy : (g.get_neighbors x).count y ≤ 1)
    (hcyx : (g.get_neighbors y).count x ≤ 1)
    (hsym : y ∈ g.get_neighbors x ↔ x ∈ g.get_neighbors y) :
    (((g.add_edge x y w1).add_edge x y w2).get_neighbors x).count y = 1 ∧
    (((g.add_edge x y w1).add_edge x y w2).get_neighbors y).count x = 1 ∧
    ((g.add_edge x y w1).add_edge x y w2).get_edge_weight x y = some w2 ∧
    ((g.add_edge x y w1).add_edge x y w2).get_edge_weight y x = some w2 ∧
    ((g.add_edge x y w1).add_edge x y w2).get_edges = (g.add_edge x y w1).get_edges :=
  count_neighbors_add_edge_again g x y w1 w2 hx hy hxy hcxy hcyx hsym

/-- Witness for the amended C7 theorem on a concrete two-vertex graph. -/
theorem c7_add_edge_idempotent_witness :
    (0 < c7Graph.get_nodes ∧ 1 < c7Graph.get_nodes ∧ (0 : Nat) ≠ 1) ∧
    ((((c7Graph.add_edge 0 1 5).add_edge 0 1 7).get_neighbors 0).count 1 = 1 ∧
     (((c7Graph.add_edge 0 1 5).add_edge 0 1 7).get_neighbors 1).count 0 = 1 ∧
     ((c7Graph.add_edge 0 1 5).add_edge 0 1 7).get_edge_weight 0 1 = some 7 ∧
     ((c7Graph.add_edge 0 1 5).add_edge 0 1 7).get_edge_weight 1 0 = some 7 ∧
     ((c7Graph.add_edge 0 1 5).add_edge 0 1 7).get_edges = (c7Graph.add_edge 0 1 5).get_edges) :=
  ⟨⟨by decide, by decide, by decide⟩,
   c7_add_edge_idempotent c7Graph 0 1 5 7 (by decide) (by decide) (by decide)
     (by decide) (by decide) (by decide)⟩

/-- C++ conversion of a (32-bit) `int` value to `unsigned` (`vertID`). -/
def toU32 (i : Int) : Nat := (i % (2 ^ 32 : Int)).toNat

/-- The hex board (`class HexBoard`): the underlying graph plus the two
dimensions and the turn flag. -/
structure HexBoard where
  g : Graph Color Int
  abs_dim : Nat
  rel_dim : Nat
  p1_turn : Bool
deriving DecidableEq, Repr

/-- The `Transpose` functor: converts `(row,col)` with offsets `(ro,co)`
into a vertex index for side length `d` (`((row+ro)*dim)+(col+co)`); the
C++ version asserts the result is below `dim*dim`, and no unsigned wrap
can occur on indices that pass that assertion for the boards the program
can allocate. -/
def transposeIdx (ro co d row col : Nat) : Nat := (row + ro) * d + (col + co)

/-- `abs_pos`: absolute coordinates, offsets (0,0). -/
def HexBoard.abs_pos (b : HexBoard) (row col : Nat) : Nat :=
  transposeIdx 0 0 b.abs_dim row col

/-- `rel_pos`: relative (playable-area) coordinates, offsets (1,1). -/
def HexBoard.rel_pos (b : HexBoard) (row col : Nat) : Nat :=
  transposeIdx 1 1 b.abs_dim row col

/-- `HexBoard::get_current_player`. -/
def HexBoard.get_current_player (b : HexBoard) : Nat := if b.p1_turn then 1 else 2

/-- `HexBoard::get_current_player_symbol`. -/
def HexBoard.get_current_player_symbol (b : HexBoard) : Color :=
  if b.p1_turn then Color.BLUE else Color.RED

/-- `HexBoard::get_playable_dim`. -/
def HexBoard.get_playable_dim (b : HexBoard) : Nat := b.rel_dim

/-- Step 1 of `reset_board`: clear the graph and add `d*d` white vertices. -/
def initVertices (d : Nat) (g : Graph Color Int) : Graph Color Int :=
  (List.range (d * d)).foldl (fun h _ => h.add_vertex Color.WHITE) g.clear

/-- One iteration (for a fixed `col`) of the coloring loop of
`reset_board`: paint the red walls, the blue walls, then the four gray
corners, in source order. -/
def paintStep (d : Nat) (g : Graph Color Int) (col : Nat) : Graph Color Int :=
  ((((((((g.set_vertex_key (transposeIdx 0 0 d 0 col) Color.RED
    ).set_vertex_key (transposeIdx 0 0 d (d - 1) col) Color.RED
    ).set_vertex_key (transposeIdx 0 0 d col 0) Color.BLUE
    ).set_vertex_key (transposeIdx 0 0 d col (d - 1)) Color.BLUE
    ).set_vertex_key (transposeIdx 0 0 d 0 0) Color.GRAY
    ).set_vertex_key (transposeIdx 0 0 d 0 (d - 1)) Color.GRAY
    ).set_vertex_key (transposeIdx 0 0 d (d - 1) 0) Color.GRAY
    ).set_vertex_key (transposeIdx 0 0 d (d - 1) (d - 1)) Color.GRAY)

/-- The full coloring loop of `reset_board`. -/
def paintAll (d : Nat) (g : Graph Color Int) : Graph Color Int :=
  (List.range d).foldl (paintStep d) g

/-- The inner body of the edge-wiring loop of `reset_board` for one
absolute cell `(row,col)`: horizontal, downward, then diagonal edge. -/
def wireCell (d : Nat) (g : Graph Color Int) (row col : Nat) : Graph Color Int :=
  let g1 := if col < d - 1 then
    g.add_edge (transposeIdx 0 0 d row col) (transposeIdx 0 0 d row (col + 1)) 1 else g
  let g2 := if row < d - 1 then
    g1.add_edge (transposeIdx 0 0 d row col) (transposeIdx 0 0 d (row + 1) col) 1 else g1
  if 0 < col ∧ row < d - 1 then
    g2.add_edge (transposeIdx 0 0 d row col) (transposeIdx 0 0 d (row + 1) (col - 1)) 1 else g2

/-- One iteration of the outer wiring loop: all cells of `row`, then the
explicit vertical edge in the last column. -/
def wireRow (d : Nat) (g : Graph Color Int) (row : Nat) : Graph Color Int :=
  let g' := (List.range d).foldl (fun h col => wireCell d h row col) g
  if row < d - 1 then
    g'.add_edge (transposeIdx 0 0 d row (d - 1)) (transposeIdx 0 0 d (row + 1) (d - 1)) 1
  else g'

/-- The full edge-wiring loop of `reset_board`. -/
def wireAll (d : Nat) (g : Graph Color Int) : Graph Color Int :=
  (List.range d).foldl (wireRow d) g

/-- `HexBoard::reset_board`: clear, allocate, paint, wire, reset turn. -/
def HexBoard.reset_board (b : HexBoard) : HexBoard :=
  { b with g := wireAll b.abs_dim (paintAll b.abs_dim (initVertices b.abs_dim b.g)),
           p1_turn := true }

/-- The `HexBoard(dim)` constructor (asserts `rel_dim > 2` in C++). -/
def mkHexBoard (dim : Nat) : HexBoard :=
  HexBoard.reset_board
    { g := Graph.empty, abs_dim := dim + 2, rel_dim := dim, p1_turn := true }

/-- Indexing into the visited vector (`visited[*p]` on `vector<bool>`);
out-of-range reads are undefined in C++ and modelled as `false`. -/
def visAt : List Bool → Nat → Bool
  | [], _ => false
  | b :: _, 0 => b
  | _ :: bs, n + 1 => visAt bs n

theorem visAt_set_self (l : List Bool) (p : Nat) (hp : p < l.length) :
    visAt (l.set p true) p = true := by
  induction l generalizing p with
  | nil => simp at hp
  | cons x xs ih =>
    cases p with
    | zero => rfl
    | succ p' => simpa [List.set, visAt] using ih p' (by simpa using hp)

theorem visAt_set_ne (l : List Bool) (p v : Nat) (h : v ≠ p) :
    visAt (l.set p true) v = visAt l v := by
  induction l generalizing p v with
  | nil => rfl
  | cons x xs ih =>
    cases p with
    | zero => cases v with
      | zero => exact absurd rfl h
      | succ v' => rfl
    | succ p' => cases v with
      | zero => rfl
      | succ v' => simpa [List.set, visAt] using ih p' v' (by omega)

theorem visAt_ge (l : List Bool) (v : Nat) (h : l.length ≤ v) :
    visAt l v = false := by
  induction l generalizing v with
  | nil => rfl
  | cons x xs ih =>
    cases v with
    | zero => simp at h
    | succ v' => simpa [visAt] using ih v' (by simpa using h)

theorem visAt_replicate (n v : Nat) : visAt (List.replicate n false) v = false := by
  induction n generalizing v with
  | zero => rfl
  | succ m ih =>
    cases v with
    | zero => rfl
    | succ v' => simpa [List.replicate, visAt] using ih v'

/-- Count of unvisited slots; the leading DFS termination measure. -/
def countFalse (l : List Bool) : Nat := l.count false

theorem countFalse_set_lt (l : List Bool) (p : Nat) (hp : p < l.length)
    (hv : visAt l p = false) : countFalse (l.set p true) < countFalse l := by
  induction l generalizing p with
  | nil => simp at hp
  | cons x xs ih =>
    cases p with
    | zero =>
      simp [visAt] at hv
      subst hv
      simp [countFalse, List.count_cons]
    | succ p' =>
      have := ih p' (by simpa using hp) (by simpa [visAt] using hv)
      simpa [countFalse, List.count_cons] using this

/-- The iterative DFS loop of `HexBoard::is_victory`, with the graph, the
visited vector, the neighbor list currently being scanned, and the stack
as explicit state. Neighbors equal to `dst` succeed immediately; unvisited
neighbors are marked and pushed only if their key matches `sym`. The C++
version indexes the visited vector unchecked (all neighbor ids are valid
in boards built by `reset_board`); an out-of-range neighbor is skipped
here, where the source behavior is undefined. -/
def dfsRun (sym : Color) (dst : Nat) (g : Graph Color Int) (visited : List Bool)
    (neigh : List Nat) (stack : List Nat) : Bool × Graph Color Int × List Bool :=
  match neigh, stack with
  | [], [] => (false, g, visited)
  | [], top :: stack' => dfsRun sym dst g visited (g.get_neighbors top) stack'
  | p :: rest, stack =>
    if p = dst then (true, g, visited)
    else if hv : visAt visited p = true then dfsRun sym dst g visited rest stack
    else if hp : p < visited.length then
      if g.get_vertex_key p = some sym then
        dfsRun sym dst g (visited.set p true) rest (p :: stack)
      else dfsRun sym dst g (visited.set p true) rest stack
    else dfsRun sym dst g visited rest stack
termination_by (countFalse visited, stack.length, neigh.length)
decreasing_by
  · apply Prod.Lex.right
    apply Prod.Lex.left
    simp
  · apply Prod.Lex.right
    apply Prod.Lex.right
    simp
  · apply Prod.Lex.left
    exact countFalse_set_lt visited p hp (by simpa using hv)
  · apply Prod.Lex.left
    exact countFalse_set_lt visited p hp (by simpa using hv)
  · apply Prod.Lex.right
    apply Prod.Lex.right
    simp

/-- Source vertex of the victory search for `sym`. -/
def HexBoard.victory_src (b : HexBoard) (sym : Color) : Nat :=
  if sym = Color.BLUE then b.abs_pos 1 0 else b.abs_pos 0 1

/-- Destination vertex of the victory search for `sym`. -/
def HexBoard.victory_dst (b : HexBoard) (sym : Color) : Nat :=
  if sym = Color.BLUE then b.abs_pos (b.abs_dim - 2) (b.abs_dim - 1)
  else b.abs_pos (b.abs_dim - 1) (b.abs_dim - 2)

/-- `HexBoard::is_victory` with the board threaded through the loop as
explicit state: returns the search result and the final board. -/
def HexBoard.is_victoryRun (b : HexBoard) (sym : Color) : Bool × HexBoard :=
  let r := dfsRun sym (b.victory_dst sym) b.g
    (List.replicate b.g.get_nodes false) [] [b.victory_src sym]
  (r.1, { b with g := r.2.1 })

/-- The boolean result of `HexBoard::is_victory`. -/
def HexBoard.is_victory (b : HexBoard) (sym : Color) : Bool :=
  (b.is_victoryRun sym).1

/-- `HexBoard::play`: bounds test (on `unsigned` values, so the C++
`row>=0 && col>=0` half is vacuous and omitted), occupancy test, color the
vertex, search for victory, flip the turn only when nobody won. -/
def HexBoard.play (b : HexBoard) (rowi coli : Int) : Outcome × HexBoard :=
  let row := toU32 rowi
  let col := toU32 coli
  if ¬(row < b.rel_dim ∧ col < b.rel_dim) then (Outcome.OOB_ERROR, b)
  else if b.g.get_vertex_key (b.rel_pos row col) ≠ some Color.WHITE then
    (Outcome.OCC_ERROR, b)
  else
    let b' := { b with
      g := b.g.set_vertex_key (b.rel_pos row col)
        (if b.p1_turn then Color.BLUE else Color.RED) }
    if b'.is_victory b'.get_current_player_symbol then
      ((if b.p1_turn then Outcome.P1_WIN else Outcome.P2_WIN), b')
    else (Outcome.NO_WIN, { b' with p1_turn := !b.p1_turn })

/-- `HexBoard::get_free_vertices`: the white playable positions in
row-major relative order. -/
def HexBoard.get_free_vertices (b : HexBoard) : List Nat :=
  (List.range b.rel_dim).foldl (fun acc row =>
    (List.range b.rel_dim).foldl (fun acc2 col =>
      if b.g.get_vertex_key (b.rel_pos row col) = some Color.WHITE then
        acc2 ++ [b.rel_pos row col]
      else acc2) acc) []

/-- `HexBoard::vertex_to_row_col`. -/
def HexBoard.vertex_to_row_col (b : HexBoard) (vert : Nat) : Int × Int :=
  ((vert / b.abs_dim : Nat) - 1, (vert % b.abs_dim : Nat) - 1)

/-- `HexBoard::clone_board_state`: copy every vertex key from `other`
(the C++ version asserts equal node counts; within the loop every index is
valid in `other`, so the `none` branch is unreachable). -/
def HexBoard.clone_board_state (b other : HexBoard) : HexBoard :=
  let g' := (List.range other.g.get_nodes).foldl
    (fun h i => match other.g.get_vertex_key i with
      | some c => h.set_vertex_key i c
      | none => h) b.g
  { b with g := g' }

theorem toU32_of_nonneg (i : Int) (h0 : 0 ≤ i) (h1 : i < 2 ^ 32) :
    toU32 i = i.toNat := by
  unfold toU32; omega

theorem toU32_lt_of_neg (i : Int) (h0 : -2 ^ 31 ≤ i) (h1 : i < 0) :
    2 ^ 31 ≤ toU32 i := by
  unfold toU32; omega

/-- The board after `play` writes the mover's color into the target
vertex, before the victory check. -/
def HexBoard.afterMark (b : HexBoard) (row col : Nat) : HexBoard :=
  { b with g := b.g.set_vertex_key (b.rel_pos row col) b.get_current_player_symbol }

/-- Claim C1: for every board state and relative coordinates inside
`[0, rel_dim)^2` whose target vertex is labeled Empty (WHITE), `play` sets
that vertex to the current player's color; if `is_victory` then holds for
that color the outcome is the current player's win and the turn flag is
not flipped, otherwise the turn flag is flipped and the outcome is
`NO_WIN`. -/
theorem c1_play_success (b : HexBoard) (rowi coli : Int)
    (hr0 : 0 ≤ rowi) (hr1 : rowi < (b.rel_dim : Int)) (hr2 : rowi < 2 ^ 31)
    (hc0 : 0 ≤ coli) (hc1 : coli < (b.rel_dim : Int)) (hc2 : coli < 2 ^ 31)
    (hempty : b.g.get_vertex_key (b.rel_pos rowi.toNat coli.toNat) =
      some Color.WHITE) :
    (b.play rowi coli).2.g = (b.afterMark rowi.toNat coli.toNat).g ∧
    ((b.afterMark rowi.toNat coli.toNat).is_victory b.get_current_player_symbol = true →
      (b.play rowi coli).1 = (if b.p1_turn then Outcome.P1_WIN else Outcome.P2_WIN) ∧
      (b.play rowi coli).2.p1_turn = b.p1_turn) ∧
    ((b.afterMark rowi.toNat coli.toNat).is_victory b.get_current_player_symbol = false →
      (b.play rowi coli).1 = Outcome.NO_WIN ∧
      (b.play rowi coli).2.p1_turn = !b.p1_turn) := by
  have hrow : toU32 rowi = rowi.toNat := toU32_of_nonneg rowi hr0 (by omega)
  have hcol : toU32 coli = coli.toNat := toU32_of_nonneg coli hc0 (by omega)
  have hrlt : rowi.toNat < b.rel_dim := by omega
  have hclt : coli.toNat < b.rel_dim := by omega
  unfold HexBoard.play HexBoard.afterMark
  rw [hrow, hcol]
  simp only [hrlt, hclt, and_self, not_true_eq_false, if_false, hempty, ne_eq,
    not_true_eq_false, if_false]
  simp only [HexBoard.get_current_player_symbol]
  by_cases hv : HexBoard.is_victory { b with g := b.g.set_vertex_key (b.rel_pos rowi.toNat coli.toNat) (if b.p1_turn then Color.BLUE else Color.RED) } (if b.p1_turn then Color.BLUE else Color.RED) = true
  · simp [HexBoard.get_current_player_symbol, hv]
  · simp only [Bool.not_eq_true] at hv
    simp [HexBoard.get_current_player_symbol, hv]

set_option maxRecDepth 10000 in
/-- Witness for C1: the first move on a fresh 3x3 board. -/
theorem c1_play_success_witness :
    (mkHexBoard 3).g.get_vertex_key ((mkHexBoard 3).rel_pos 0 0) = some Color.WHITE ∧
    (((mkHexBoard 3).play 0 0).2.g = ((mkHexBoard 3).afterMark 0 0).g ∧
     (((mkHexBoard 3).afterMark 0 0).is_victory (mkHexBoard 3).get_current_player_symbol = true →
       ((mkHexBoard 3).play 0 0).1 = (if (mkHexBoard 3).p1_turn then Outcome.P1_WIN else Outcome.P2_WIN) ∧
       ((mkHexBoard 3).play 0 0).2.p1_turn = (mkHexBoard 3).p1_turn) ∧
     (((mkHexBoard 3).afterMark 0 0).is_victory (mkHexBoard 3).get_current_player_symbol = false →
       ((mkHexBoard 3).play 0 0).1 = Outcome.NO_WIN ∧
       ((mkHexBoard 3).play 0 0).2.p1_turn = !(mkHexBoard 3).p1_turn)) :=
  ⟨by decide, c1_play_success (mkHexBoard 3) 0 0 (by decide) (by decide) (by decide)
    (by decide) (by decide) (by decide) (by decide)⟩

/-- Claim C2: out-of-range inputs (negative included) make `play` return
`OOB_ERROR`; in-range inputs on a non-Empty vertex return `OCC_ERROR`; in
both cases the board (all labels, all edges, the turn flag) is returned
unchanged. The int arguments range over C++ 32-bit ints, and any board the
program can allocate has `rel_dim ≤ 2^31`. -/
theorem c2_play_errors (b : HexBoard) (rowi coli : Int)
    (hri0 : -2 ^ 31 ≤ rowi) (hri1 : rowi < 2 ^ 31)
    (hci0 : -2 ^ 31 ≤ coli) (hci1 : coli < 2 ^ 31)
    (hdim : b.rel_dim ≤ 2 ^ 31) :
    ((rowi < 0 ∨ (b.rel_dim : Int) ≤ rowi ∨ coli < 0 ∨ (b.rel_dim : Int) ≤ coli) →
      b.play rowi coli = (Outcome.OOB_ERROR, b)) ∧
    ((0 ≤ rowi ∧ rowi < (b.rel_dim : Int) ∧ 0 ≤ coli ∧ coli < (b.rel_dim : Int)) →
      b.g.get_vertex_key (b.rel_pos (toU32 rowi) (toU32 coli)) ≠ some Color.WHITE →
      b.play rowi coli = (Outcome.OCC_ERROR, b)) := by
  constructor
  · intro hout
    have hbad : ¬(toU32 rowi < b.rel_dim ∧ toU32 coli < b.rel_dim) := by
      unfold toU32
      rcases hout with h | h | h | h <;> omega
    simp [HexBoard.play, hbad]
  · rintro ⟨h0r, h1r, h0c, h1c⟩ hocc
    have hgr : toU32 rowi < b.rel_dim := by unfold toU32; omega
    have hgc : toU32 coli < b.rel_dim := by unfold toU32; omega
    simp [HexBoard.play, hgr, hgc, hocc]

set_option maxRecDepth 10000 in
/-- Witness for C2: a negative coordinate on a fresh 3x3 board. -/
theorem c2_play_errors_witness :
    ((-1 : Int) < 0) ∧ (mkHexBoard 3).play (-1) 0 = (Outcome.OOB_ERROR, mkHexBoard 3) :=
  ⟨by decide,
   (c2_play_errors (mkHexBoard 3) (-1) 0 (by decide) (by decide) (by decide)
     (by decide) (by decide)).1 (Or.inl (by decide))⟩

theorem dfsRun_nil_nil (sym : Color) (dst : Nat) (g : Graph Color Int)
    (visited : List Bool) : dfsRun sym dst g visited [] [] = (false, g, visited) := by
  unfold dfsRun
  rfl

theorem dfsRun_nil_cons (sym : Color) (dst : Nat) (g : Graph Color Int)
    (visited : List Bool) (top : Nat) (stack' : List Nat) :
    dfsRun sym dst g visited [] (top :: stack') =
      dfsRun sym dst g visited (g.get_neighbors top) stack' := by
  conv_lhs => unfold dfsRun

theorem dfsRun_cons_dst (sym : Color) (dst : Nat) (g : Graph Color Int)
    (visited : List Bool) (rest stack : List Nat) :
    dfsRun sym dst g visited (dst :: rest) stack = (true, g, visited) := by
  conv_lhs => unfold dfsRun
  simp

theorem dfsRun_cons_visited (sym : Color) (dst : Nat) (g : Graph Color Int)
    (visited : List Bool) (p : Nat) (rest stack : List Nat)
    (hd : p ≠ dst) (hv : visAt visited p = true) :
    dfsRun sym dst g visited (p :: rest) stack = dfsRun sym dst g visited rest stack := by
  conv_lhs => unfold dfsRun
  simp [hd, hv]

theorem dfsRun_cons_push (sym : Color) (dst : Nat) (g : Graph Color Int)
    (visited : List Bool) (p : Nat) (rest stack : List Nat)
    (hd : p ≠ dst) (hv : ¬visAt visited p = true) (hlen : p < visited.length)
    (hkey : g.get_vertex_key p = some sym) :
    dfsRun sym dst g visited (p :: rest) stack =
      dfsRun sym dst g (visited.set p true) rest (p :: stack) := by
  conv_lhs => unfold dfsRun
  simp [hd, hv, hlen, hkey]

theorem dfsRun_cons_mark (sym : Color) (dst : Nat) (g : Graph Color Int)
    (visited : List Bool) (p : Nat) (rest stack : List Nat)
    (hd : p ≠ dst) (hv : ¬visAt visited p = true) (hlen : p < visited.length)
    (hkey : ¬g.get_vertex_key p = some sym) :
    dfsRun sym dst g visited (p :: rest) stack =
      dfsRun sym dst g (visited.set p true) rest stack := by
  conv_lhs => unfold dfsRun
  simp [hd, hv, hlen, hkey]

theorem dfsRun_cons_skip (sym : Color) (dst : Nat) (g : Graph Color Int)
    (visited : List Bool) (p : Nat) (rest stack : List Nat)
    (hd : p ≠ dst) (hv : ¬visAt visited p = true) (hlen : ¬p < visited.length) :
    dfsRun sym dst g visited (p :: rest) stack = dfsRun sym dst g visited rest stack := by
  conv_lhs => unfold dfsRun
  simp [hd, hv, hlen]

theorem dfsRun_graph (sym : Color) (dst : Nat) (g : Graph Color Int) :
    ∀ (visited : List Bool) (neigh stack : List Nat),
      (dfsRun sym dst g visited neigh stack).2.1 = g := by
  intro visited neigh stack
  induction visited, neigh, stack using dfsRun.induct sym dst g with
  | case1 visited => rw [dfsRun_nil_nil]
  | case2 visited top stack' ih => rw [dfsRun_nil_cons]; exact ih
  | case3 visited rest stack => rw [dfsRun_cons_dst]
  | case4 visited p rest stack hd hv ih =>
      rw [dfsRun_cons_visited _ _ _ _ _ _ _ hd hv]; exact ih
  | case5 visited p rest stack hd hv hlen hkey ih =>
      rw [dfsRun_cons_push _ _ _ _ _ _ _ hd hv hlen hkey]; exact ih
  | case6 visited p rest stack hd hv hlen hkey ih =>
      rw [dfsRun_cons_mark _ _ _ _ _ _ _ hd hv hlen hkey]; exact ih
  | case7 visited p rest stack hd hv hlen ih =>
      rw [dfsRun_cons_skip _ _ _ _ _ _ _ hd hv hlen]; exact ih

theorem dfsRun_len (sym : Color) (dst : Nat) (g : Graph Color Int) :
    ∀ (visited : List Bool) (neigh stack : List Nat),
      (dfsRun sym dst g visited neigh stack).2.2.length = visited.length := by
  intro visited neigh stack
  induction visited, neigh, stack using dfsRun.induct sym dst g with
  | case1 visited => rw [dfsRun_nil_nil]
  | case2 visited top stack' ih => rw [dfsRun_nil_cons]; exact ih
  | case3 visited rest stack => rw [dfsRun_cons_dst]
  | case4 visited p rest stack hd hv ih =>
      rw [dfsRun_cons_visited _ _ _ _ _ _ _ hd hv]; exact ih
  | case5 visited p rest stack hd hv hlen hkey ih =>
      rw [dfsRun_cons_push _ _ _ _ _ _ _ hd hv hlen hkey]
      simpa [List.length_set] using ih
  | case6 visited p rest stack hd hv hlen hkey ih =>
      rw [dfsRun_cons_mark _ _ _ _ _ _ _ hd hv hlen hkey]
      simpa [List.length_set] using ih
  | case7 visited p rest stack hd hv hlen ih =>
      rw [dfsRun_cons_skip _ _ _ _ _ _ _ hd hv hlen]; exact ih

theorem dfsRun_mono (sym : Color) (dst : Nat) (g : Graph Color Int) :
    ∀ (visited : List Bool) (neigh stack : List Nat) (v : Nat),
      visAt visited v = true →
      visAt (dfsRun sym dst g visited neigh stack).2.2 v = true := by
  intro visited neigh stack
  induction visited, neigh, stack using dfsRun.induct sym dst g with
  | case1 visited => intro v hv2; rw [dfsRun_nil_nil]; exact hv2
  | case2 visited top stack' ih =>
      intro v hv2; rw [dfsRun_nil_cons]; exact ih v hv2
  | case3 visited rest stack => intro v hv2; rw [dfsRun_cons_dst]; exact hv2
  | case4 visited p rest stack hd hv ih =>
      intro v hv2
      rw [dfsRun_cons_visited _ _ _ _ _ _ _ hd hv]; exact ih v hv2
  | case5 visited p rest stack hd hv hlen hkey ih =>
      intro v hv2
      rw [dfsRun_cons_push _ _ _ _ _ _ _ hd hv hlen hkey]
      apply ih
      by_cases hvp : v = p
      · subst hvp; exact visAt_set_self _ _ hlen
      · rw [visAt_set_ne _ _ _ hvp]; exact hv2
  | case6 visited p rest stack hd hv hlen hkey ih =>
      intro v hv2
      rw [dfsRun_cons_mark _ _ _ _ _ _ _ hd hv hlen hkey]
      apply ih
      by_cases hvp : v = p
      · subst hvp; exact visAt_set_self _ _ hlen
      · rw [visAt_set_ne _ _ _ hvp]; exact hv2
  | case7 visited p rest stack hd hv hlen ih =>
      intro v hv2
      rw [dfsRun_cons_skip _ _ _ _ _ _ _ hd hv hlen]; exact ih v hv2

theorem dfsRun_exhaust (sym : Color) (dst : Nat) (g : Graph Color Int) :
    ∀ (visited : List Bool) (neigh stack : List Nat),
      (dfsRun sym dst g visited neigh stack).1 = false →
      (∀ p ∈ neigh, p ≠ dst ∧ (p < visited.length →
          visAt (dfsRun sym dst g visited neigh stack).2.2 p = true)) ∧
      (∀ v ∈ stack, ∀ w ∈ g.get_neighbors v, w ≠ dst ∧ (w < visited.length →
          visAt (dfsRun sym dst g visited neigh stack).2.2 w = true)) := by
  intro visited neigh stack
  induction visited, neigh, stack using dfsRun.induct sym dst g with
  | case1 visited =>
      intro _
      rw [dfsRun_nil_nil]
      exact ⟨by simp, by simp⟩
  | case2 visited top stack' ih =>
      rw [dfsRun_nil_cons]
      intro hf
      obtain ⟨hneigh, hstack⟩ := ih hf
      refine ⟨by simp, ?_⟩
      intro v hvmem w hw
      rcases List.mem_cons.mp hvmem with hvtop | hvtail
      · subst hvtop; exact hneigh w hw
      · exact hstack v hvtail w hw
  | case3 visited rest stack =>
      rw [dfsRun_cons_dst]
      intro hf
      simp at hf
  | case4 visited p rest stack hd hv ih =>
      rw [dfsRun_cons_visited _ _ _ _ _ _ _ hd hv]
      intro hf
      obtain ⟨hneigh, hstack⟩ := ih hf
      refine ⟨?_, hstack⟩
      intro q hq
      rcases List.mem_cons.mp hq with hqp | hqrest
      · subst hqp
        exact ⟨hd, fun _ => dfsRun_mono sym dst g visited rest stack q hv⟩
      · exact hneigh q hqrest
  | case5 visited p rest stack hd hv hlen hkey ih =>
      rw [dfsRun_cons_push _ _ _ _ _ _ _ hd hv hlen hkey]
      intro hf
      obtain ⟨hneigh, hstack⟩ := ih hf
      rw [List.length_set] at hneigh hstack
      refine ⟨?_, ?_⟩
      · intro q hq
        rcases List.mem_cons.mp hq with hqp | hqrest
        · subst hqp
          refine ⟨hd, fun _ => ?_⟩
          exact dfsRun_mono sym dst g _ rest (q :: stack) q (visAt_set_self _ _ hlen)
        · exact hneigh q hqrest
      · intro v hvmem w hw
        exact hstack v (List.mem_cons_of_mem p hvmem) w hw
  | case6 visited p rest stack hd hv hlen hkey ih =>
      rw [dfsRun_cons_mark _ _ _ _ _ _ _ hd hv hlen hkey]
      intro hf
      obtain ⟨hneigh, hstack⟩ := ih hf
      rw [List.length_set] at hneigh hstack
      refine ⟨?_, hstack⟩
      intro q hq
      rcases List.mem_cons.mp hq with hqp | hqrest
      · subst hqp
        refine ⟨hd, fun _ => ?_⟩
        exact dfsRun_mono sym dst g _ rest stack q (visAt_set_self _ _ hlen)
      · exact hneigh q hqrest
  | case7 visited p rest stack hd hv hlen ih =>
      rw [dfsRun_cons_skip _ _ _ _ _ _ _ hd hv hlen]
      intro hf
      obtain ⟨hneigh, hstack⟩ := ih hf
      refine ⟨?_, hstack⟩
      intro q hq
      rcases List.mem_cons.mp hq with hqp | hqrest
      · subst hqp
        exact ⟨hd, fun hlen' => absurd hlen' hlen⟩
      · exact hneigh q hqrest

theorem dfsRun_closure (sym : Color) (dst : Nat) (g : Graph Color Int) :
    ∀ (visited : List Bool) (neigh stack : List Nat),
      (dfsRun sym dst g visited neigh stack).1 = false →
      ∀ v, visAt visited v = false →
        visAt (dfsRun sym dst g visited neigh stack).2.2 v = true →
        g.get_vertex_key v = some sym →
        ∀ w ∈ g.get_neighbors v, w ≠ dst ∧ (w < visited.length →
          visAt (dfsRun sym dst g visited neigh stack).2.2 w = true) := by
  intro visited neigh stack
  induction visited, neigh, stack using dfsRun.induct sym dst g with
  | case1 visited =>
      rw [dfsRun_nil_nil]
      intro _ v hv0 hv1 _ _ _
      rw [hv0] at hv1
      exact absurd hv1 (by simp)
  | case2 visited top stack' ih =>
      rw [dfsRun_nil_cons]
      exact ih
  | case3 visited rest stack =>
      rw [dfsRun_cons_dst]
      intro hf
      simp at hf
  | case4 visited p rest stack hd hv ih =>
      rw [dfsRun_cons_visited _ _ _ _ _ _ _ hd hv]
      exact ih
  | case5 visited p rest stack hd hv hlen hkey ih =>
      rw [dfsRun_cons_push _ _ _ _ _ _ _ hd hv hlen hkey]
      intro hf v hv0 hv1 hkeyv w hw
      by_cases hvp : v = p
      · subst hvp
        have := (dfsRun_exhaust sym dst g _ rest (v :: stack) hf).2 v
          (List.mem_cons_self v stack) w hw
        rw [List.length_set] at this
        exact this
      · have hv0' : visAt (visited.set p true) v = false := by
          rw [visAt_set_ne _ _ _ hvp]; exact hv0
        have := ih hf v hv0' hv1 hkeyv w hw
        rw [List.length_set] at this
        exact this
  | case6 visited p rest stack hd hv hlen hkey ih =>
      rw [dfsRun_cons_mark _ _ _ _ _ _ _ hd hv hlen hkey]
      intro hf v hv0 hv1 hkeyv w hw
      by_cases hvp : v = p
      · subst hvp; exact absurd hkeyv hkey
      · have hv0' : visAt (visited.set p true) v = false := by
          rw [visAt_set_ne _ _ _ hvp]; exact hv0
        have := ih hf v hv0' hv1 hkeyv w hw
        rw [List.length_set] at this
        exact this
  | case7 visited p rest stack hd hv hlen ih =>
      rw [dfsRun_cons_skip _ _ _ _ _ _ _ hd hv hlen]
      exact ih

/-- Reachability from `src` along adjacency-list steps through vertices
whose key equals `sym`: the endpoint is `src` itself or every vertex after
`src` on the chain (endpoint included) has key `sym`. -/
inductive ColorReach (g : Graph Color Int) (sym : Color) (src : Nat) : Nat → Prop
  | refl : ColorReach g sym src src
  | step {u v : Nat} : ColorReach g sym src u → v ∈ g.get_neighbors u →
      g.get_vertex_key v = some sym → ColorReach g sym src v

/-- There is a path from `src` to `dst` in which every vertex strictly
between the two endpoints is labeled `sym` (`dst` itself need not be). -/
def VictoryPath (g : Graph Color Int) (sym : Color) (src dst : Nat) : Prop :=
  ∃ u, ColorReach g sym src u ∧ dst ∈ g.get_neighbors u

theorem dfsRun_sound (sym : Color) (dst : Nat) (g : Graph Color Int) (src : Nat) :
    ∀ (visited : List Bool) (neigh stack : List Nat),
      (∀ v ∈ stack, ColorReach g sym src v) →
      (∀ p ∈ neigh, ∃ u, ColorReach g sym src u ∧ p ∈ g.get_neighbors u) →
      (dfsRun sym dst g visited neigh stack).1 = true →
      VictoryPath g sym src dst := by
  intro visited neigh stack
  induction visited, neigh, stack using dfsRun.induct sym dst g with
  | case1 visited =>
      intro _ _ ht
      rw [dfsRun_nil_nil] at ht
      simp at ht
  | case2 visited top stack' ih =>
      intro hstack hneigh ht
      rw [dfsRun_nil_cons] at ht
      refine ih (fun v hvm => hstack v (List.mem_cons_of_mem top hvm)) ?_ ht
      intro p hp
      exact ⟨top, hstack top (List.mem_cons_self top stack'), hp⟩
  | case3 visited rest stack =>
      intro _ hneigh _
      exact hneigh dst (List.mem_cons_self dst rest)
  | case4 visited p rest stack hd hv ih =>
      intro hstack hneigh ht
      rw [dfsRun_cons_visited _ _ _ _ _ _ _ hd hv] at ht
      exact ih hstack (fun q hq => hneigh q (List.mem_cons_of_mem p hq)) ht
  | case5 visited p rest stack hd hv hlen hkey ih =>
      intro hstack hneigh ht
      rw [dfsRun_cons_push _ _ _ _ _ _ _ hd hv hlen hkey] at ht
      refine ih ?_ (fun q hq => hneigh q (List.mem_cons_of_mem p hq)) ht
      intro v hvm
      rcases List.mem_cons.mp hvm with hvp | hvtail
      · subst hvp
        obtain ⟨u, hu, hpu⟩ := hneigh v (List.mem_cons_self v rest)
        exact ColorReach.step hu hpu hkey
      · exact hstack v hvtail
  | case6 visited p rest stack hd hv hlen hkey ih =>
      intro hstack hneigh ht
      rw [dfsRun_cons_mark _ _ _ _ _ _ _ hd hv hlen hkey] at ht
      exact ih hstack (fun q hq => hneigh q (List.mem_cons_of_mem p hq)) ht
  | case7 visited p rest stack hd hv hlen ih =>
      intro hstack hneigh ht
      rw [dfsRun_cons_skip _ _ _ _ _ _ _ hd hv hlen] at ht
      exact ih hstack (fun q hq => hneigh q (List.mem_cons_of_mem p hq)) ht

/-- Every adjacency-list target is a valid vertex index; this holds for
every graph the repository builds (`add_edge` validates its endpoints). -/
def Graph.edges_in_range (g : Graph Color Int) : Prop :=
  ∀ v ∈ g.vlist, ∀ e ∈ v.elist, e.neigh < g.get_nodes

instance (g : Graph Color Int) : Decidable g.edges_in_range := by
  unfold Graph.edges_in_range
  infer_instance

theorem neighbors_lt_of_edges_in_range (g : Graph Color Int)
    (h : g.edges_in_range) (u : Nat) : ∀ w ∈ g.get_neighbors u, w < g.get_nodes := by
  intro w hw
  unfold Graph.get_neighbors at hw
  cases hg : g.vlist.get? u with
  | none => rw [hg] at hw; simp at hw
  | some v =>
    rw [hg] at hw
    have hvmem : v ∈ g.vlist := by
      have := List.get?_eq_some.mp hg
      obtain ⟨hlt, hget⟩ := this
      exact hget ▸ List.get_mem g.vlist _ hlt
    unfold Vertex.neighbors at hw
    obtain ⟨e, he, hew⟩ := List.mem_map.mp hw
    exact hew ▸ h v hvmem e he

theorem dfsRun_complete (sym : Color) (dst : Nat) (g : Graph Color Int) (src : Nat)
    (hrange : g.edges_in_range)
    (hf : (dfsRun sym dst g (List.replicate g.get_nodes false) [] [src]).1 = false) :
    ∀ u, ColorReach g sym src u →
      ∀ w ∈ g.get_neighbors u, w ≠ dst ∧ (w < g.get_nodes →
        visAt (dfsRun sym dst g (List.replicate g.get_nodes false) [] [src]).2.2 w = true) := by
  intro u hreach
  induction hreach with
  | refl =>
      intro w hw
      have := (dfsRun_exhaust sym dst g (List.replicate g.get_nodes false) [] [src] hf).2
        src (List.mem_cons_self src []) w hw
      rwa [List.length_replicate] at this
  | step hru hvmem hkeyv ih =>
      rename_i u' v'
      intro w hw
      have hv'lt : v' < g.get_nodes := neighbors_lt_of_edges_in_range g hrange u' v' hvmem
      have hv'marked : visAt (dfsRun sym dst g (List.replicate g.get_nodes false) [] [src]).2.2 v' = true :=
        (ih v' hvmem).2 hv'lt
      have := dfsRun_closure sym dst g (List.replicate g.get_nodes false) [] [src] hf
        v' (visAt_replicate _ _) hv'marked hkeyv w hw
      rwa [List.length_replicate] at this

theorem is_victory_iff_path (b : HexBoard) (sym : Color) (hwf : b.g.edges_in_range) :
    b.is_victory sym = true ↔
      VictoryPath b.g sym (b.victory_src sym) (b.victory_dst sym) := by
  unfold HexBoard.is_victory HexBoard.is_victoryRun
  simp only []
  constructor
  · intro ht
    refine dfsRun_sound sym (b.victory_dst sym) b.g (b.victory_src sym)
      (List.replicate b.g.get_nodes false) [] [b.victory_src sym] ?_ (by simp) ht
    intro v hv
    rcases List.mem_singleton.mp hv with rfl
    exact ColorReach.refl
  · rintro ⟨u, hu, hdst⟩
    by_contra hne
    have hf : (dfsRun sym (b.victory_dst sym) b.g
        (List.replicate b.g.get_nodes false) [] [b.victory_src sym]).1 = false := by
      simpa using hne
    have := dfsRun_complete sym (b.victory_dst sym) b.g (b.victory_src sym) hwf hf
      u hu (b.victory_dst sym) hdst
    exact this.1 rfl

/-- Claim C3: for every board state whose adjacency lists are in range (as
holds for every board the program builds) and every color sym in
{BLUE, RED}, `is_victory sym` returns true exactly when there is a path in
the board graph from sym's source margin vertex (absolute (1,0) for BLUE,
(0,1) for RED) to sym's destination margin vertex (absolute
(abs_dim-2, abs_dim-1) for BLUE, (abs_dim-1, abs_dim-2) for RED) in which
every vertex strictly between source and destination is labeled sym; the
destination's own label is not constrained. -/
theorem c3_is_victory_iff (b : HexBoard) (sym : Color)
    (hsym : sym = Color.BLUE ∨ sym = Color.RED) (hwf : b.g.edges_in_range) :
    b.is_victory sym = true ↔
      VictoryPath b.g sym (b.victory_src sym) (b.victory_dst sym) :=
  is_victory_iff_path b sym hwf

set_option maxRecDepth 100000 in
/-- Witness for C3 on a fresh 3x3 board with BLUE. -/
theorem c3_is_victory_iff_witness :
    (mkHexBoard 3).g.edges_in_range ∧
    ((mkHexBoard 3).is_victory Color.BLUE = true ↔
      VictoryPath (mkHexBoard 3).g Color.BLUE
        ((mkHexBoard 3).victory_src Color.BLUE)
        ((mkHexBoard 3).victory_dst Color.BLUE)) :=
  ⟨by decide, c3_is_victory_iff (mkHexBoard 3) Color.BLUE (Or.inl rfl) (by decide)⟩

/-- Claim C10: `is_victory` never mutates the board: threading the board
through the DFS loop returns it unchanged (labels, edges, weights, edge
count and turn flag are all identical), the search only allocating its own
visited vector and stack. -/
theorem c10_is_victory_frame (b : HexBoard) (sym : Color) :
    b.is_victoryRun sym = (b.is_victory sym, b) := by
  unfold HexBoard.is_victory HexBoard.is_victoryRun
  simp only [dfsRun_graph]

theorem transposeIdx_inj (d r c a b : Nat) (hc : c < d) (hb : b < d) :
    transposeIdx 0 0 d r c = transposeIdx 0 0 d a b ↔ (r = a ∧ c = b) := by
  unfold transposeIdx
  constructor
  · intro h
    simp only [Nat.add_zero] at h
    rcases Nat.lt_trichotomy r a with hlt | heq | hgt
    · exfalso
      have h1 : (r + 1) * d ≤ a * d := Nat.mul_le_mul_right d hlt
      have h2 : r * d + c < (r + 1) * d := by
        have : (r + 1) * d = r * d + d := by ring
        omega
      omega
    · exact ⟨heq, by subst heq; omega⟩
    · exfalso
      have h1 : (a + 1) * d ≤ r * d := Nat.mul_le_mul_right d hgt
      have h2 : (a + 1) * d = a * d + d := by ring
      omega
  · rintro ⟨rfl, rfl⟩; rfl

theorem transposeIdx_lt (d r c : Nat) (hr : r < d) (hc : c < d) :
    transposeIdx 0 0 d r c < d * d := by
  unfold transposeIdx
  simp only [Nat.add_zero]
  have h1 : (r + 1) * d ≤ d * d := Nat.mul_le_mul_right d hr
  have h2 : (r + 1) * d = r * d + d := by ring
  omega

theorem get?_replicate (a : α) (n i : Nat) :
    (List.replicate n a).get? i = if i < n then some a else none := by
  induction n generalizing i with
  | zero => simp
  | succ m ih =>
    cases i with
    | zero => simp [List.replicate]
    | succ i' =>
      rw [List.replicate_succ]
      show (List.replicate m a).get? i' = _
      rw [ih]
      by_cases h : i' < m <;> simp [h, Nat.succ_lt_succ_iff]

theorem initVertices_vlist (d : Nat) (g : Graph Color Int) :
    (initVertices d g).vlist = List.replicate (d * d) ⟨Color.WHITE, []⟩ := by
  unfold initVertices
  have key : ∀ (n : Nat) (g0 : Graph Color Int),
      ((List.range n).foldl (fun h _ => h.add_vertex Color.WHITE) g0).vlist =
        g0.vlist ++ List.replicate n ⟨Color.WHITE, []⟩ := by
    intro n
    induction n with
    | zero => intro g0; simp
    | succ m ih =>
      intro g0
      rw [List.range_succ, List.foldl_append, List.foldl_cons, List.foldl_nil]
      show (((List.range m).foldl (fun h _ => h.add_vertex Color.WHITE) g0).add_vertex Color.WHITE).vlist = _
      rw [Graph.add_vertex, ih, List.replicate_succ']
      simp
  rw [key]
  simp [Graph.clear]

theorem initVertices_nodes (d : Nat) (g : Graph Color Int) :
    (initVertices d g).get_nodes = d * d := by
  rw [Graph.get_nodes, initVertices_vlist]
  simp

theorem initVertices_key (d : Nat) (g : Graph Color Int) (i : Nat) (hi : i < d * d) :
    (initVertices d g).get_vertex_key i = some Color.WHITE := by
  rw [Graph.get_vertex_key, initVertices_vlist, get?_replicate]
  simp [hi]

theorem initVertices_neighbors (d : Nat) (g : Graph Color Int) (i : Nat) :
    (initVertices d g).get_neighbors i = [] := by
  rw [Graph.get_neighbors, initVertices_vlist, get?_replicate]
  by_cases hi : i < d * d <;> simp [hi, Vertex.neighbors]

theorem get_nodes_set_vertex_key (g : Graph Color Int) (x : Nat) (c : Color) :
    (g.set_vertex_key x c).get_nodes = g.get_nodes := by
  simp [Graph.set_vertex_key, Graph.get_nodes, length_updAt]

theorem get_vertex_key_set_vertex_key (g : Graph Color Int) (x : Nat) (c : Color) (i : Nat) :
    (g.set_vertex_key x c).get_vertex_key i =
      if i = x ∧ x < g.get_nodes then some c else g.get_vertex_key i := by
  unfold Graph.set_vertex_key Graph.get_vertex_key
  by_cases hix : i = x
  · subst hix
    rw [get?_updAt_self']
    by_cases hx : i < g.get_nodes
    · cases hg : g.vlist.get? i with
      | none =>
        exact absurd (List.get?_eq_none.mp hg) (by simpa [Graph.get_nodes] using hx)
      | some v => simp [hx]
    · have hnone : g.vlist.get? i = none :=
        List.get?_eq_none.mpr (by simpa [Graph.get_nodes] using hx)
      rw [hnone]
      simp [hx]
  · rw [get?_updAt_ne _ _ _ _ hix]
    simp [hix]

theorem get_neighbors_set_vertex_key (g : Graph Color Int) (x : Nat) (c : Color) (i : Nat) :
    (g.set_vertex_key x c).get_neighbors i = g.get_neighbors i := by
  unfold Graph.set_vertex_key Graph.get_neighbors
  by_cases hix : i = x
  · subst hix
    rw [get?_updAt_self']
    cases g.vlist.get? i <;> simp [Vertex.neighbors]
  · rw [get?_updAt_ne _ _ _ _ hix]

/-- The vertex coloring `reset_board` produces, by absolute coordinates:
gray corners, red top and bottom margin rows, blue left and right margin
columns, white interior. -/
def initLabel (d r c : Nat) : Color :=
  if (r = 0 ∨ r = d - 1) ∧ (c = 0 ∨ c = d - 1) then Color.GRAY
  else if r = 0 ∨ r = d - 1 then Color.RED
  else if c = 0 ∨ c = d - 1 then Color.BLUE
  else Color.WHITE

/-- The coloring after the first `k` iterations of the paint loop. -/
def paintLabel (d k r c : Nat) : Color :=
  if (r = 0 ∨ r = d - 1) ∧ (c = 0 ∨ c = d - 1) ∧ 0 < k then Color.GRAY
  else if (r = 0 ∨ r = d - 1) ∧ c < k then Color.RED
  else if (c = 0 ∨ c = d - 1) ∧ r < k then Color.BLUE
  else Color.WHITE

theorem paintStep_nodes (d : Nat) (g : Graph Color Int) (k : Nat) :
    (paintStep d g k).get_nodes = g.get_nodes := by
  unfold paintStep
  simp [get_nodes_set_vertex_key]

theorem paintStep_key (d : Nat) (hd : 2 ≤ d) (g : Graph Color Int) (k : Nat)
    (hnodes : g.get_nodes = d * d) (hk : k < d) (r c : Nat) (hr : r < d) (hc : c < d) :
    (paintStep d g k).get_vertex_key (transposeIdx 0 0 d r c) =
      if (r = 0 ∨ r = d - 1) ∧ (c = 0 ∨ c = d - 1) then some Color.GRAY
      else if (c = 0 ∨ c = d - 1) ∧ r = k then some Color.BLUE
      else if (r = 0 ∨ r = d - 1) ∧ c = k then some Color.RED
      else g.get_vertex_key (transposeIdx 0 0 d r c) := by
  have hd1 : 0 < d := by omega
  have hdm : d - 1 < d := by omega
  unfold paintStep
  simp only [get_vertex_key_set_vertex_key, get_nodes_set_vertex_key, hnodes]
  simp only [transposeIdx_inj d r c (d-1) (d-1) hc hdm, transposeIdx_inj d r c (d-1) 0 hc hd1,
    transposeIdx_inj d r c 0 (d-1) hc hdm, transposeIdx_inj d r c 0 0 hc hd1,
    transposeIdx_inj d r c k (d-1) hc hdm, transposeIdx_inj d r c k 0 hc hd1,
    transposeIdx_inj d r c (d-1) k hc hk, transposeIdx_inj d r c 0 k hc hk]
  simp only [transposeIdx_lt d (d-1) (d-1) hdm hdm, transposeIdx_lt d (d-1) 0 hdm hd1,
    transposeIdx_lt d 0 (d-1) hd1 hdm, transposeIdx_lt d 0 0 hd1 hd1,
    transposeIdx_lt d k (d-1) hk hdm, transposeIdx_lt d k 0 hk hd1,
    transposeIdx_lt d (d-1) k hdm hk, transposeIdx_lt d 0 k hd1 hk, and_true]
  split_ifs <;> first | rfl | omega

theorem paint_fold_nodes (d : Nat) (G0 : Graph Color Int) (k : Nat) :
    ((List.range k).foldl (paintStep d) G0).get_nodes = G0.get_nodes := by
  induction k with
  | zero => rfl
  | succ m ih =>
    rw [List.range_succ, List.foldl_append, List.foldl_cons, List.foldl_nil,
      paintStep_nodes]
    exact ih

theorem paint_fold_key (d : Nat) (hd : 2 ≤ d) (G0 : Graph Color Int)
    (hnodes : G0.get_nodes = d * d)
    (hwhite : ∀ r c, r < d → c < d →
      G0.get_vertex_key (transposeIdx 0 0 d r c) = some Color.WHITE) :
    ∀ k, k ≤ d → ∀ r c, r < d → c < d →
      ((List.range k).foldl (paintStep d) G0).get_vertex_key (transposeIdx 0 0 d r c) =
        some (paintLabel d k r c) := by
  intro k
  induction k with
  | zero =>
    intro _ r c hr hc
    simpa [paintLabel] using hwhite r c hr hc
  | succ m ih =>
    intro hm r c hr hc
    rw [List.range_succ, List.foldl_append, List.foldl_cons, List.foldl_nil]
    rw [paintStep_key d hd _ m (by rw [paint_fold_nodes]; exact hnodes) (by omega) r c hr hc]
    have ihm := ih (by omega) r c hr hc
    rw [ihm]
    unfold paintLabel
    split_ifs <;> first | rfl | omega

theorem paintAll_key (d : Nat) (hd : 2 ≤ d) (G0 : Graph Color Int)
    (hnodes : G0.get_nodes = d * d)
    (hwhite : ∀ r c, r < d → c < d →
      G0.get_vertex_key (transposeIdx 0 0 d r c) = some Color.WHITE)
    (r c : Nat) (hr : r < d) (hc : c < d) :
    (paintAll d G0).get_vertex_key (transposeIdx 0 0 d r c) = some (initLabel d r c) := by
  unfold paintAll
  rw [paint_fold_key d hd G0 hnodes hwhite d (by omega) r c hr hc]
  unfold paintLabel initLabel
  split_ifs <;> first | rfl | omega

theorem paint_fold_neighbors (d : Nat) (G0 : Graph Color Int) (k : Nat) (i : Nat) :
    ((List.range k).foldl (paintStep d) G0).get_neighbors i = G0.get_neighbors i := by
  induction k with
  | zero => rfl
  | succ m ih =>
    rw [List.range_succ, List.foldl_append, List.foldl_cons, List.foldl_nil]
    unfold paintStep
    simp only [get_neighbors_set_vertex_key]
    exact ih

theorem paintAll_nodes (d : Nat) (G0 : Graph Color Int) :
    (paintAll d G0).get_nodes = G0.get_nodes := paint_fold_nodes d G0 d

theorem paintAll_neighbors (d : Nat) (G0 : Graph Color Int) (i : Nat) :
    (paintAll d G0).get_neighbors i = G0.get_neighbors i :=
  paint_fold_neighbors d G0 d i

/-- `add_edge x y _` links `i` and `j` (in either orientation). -/
def edgePair (x y i j : Nat) : Prop := (i = x ∧ j = y) ∨ (i = y ∧ j = x)

theorem edgePair_symm (x y i j : Nat) : edgePair x y i j ↔ edgePair x y j i := by
  unfold edgePair; tauto

/-- Invariant of all graphs the board builder manipulates: fixed node
count, symmetric adjacency, duplicate-free adjacency lists. -/
def GInv (N : Nat) (g : Graph Color Int) : Prop :=
  g.get_nodes = N ∧ (∀ i j, j ∈ g.get_neighbors i ↔ i ∈ g.get_neighbors j) ∧
  (∀ i, (g.get_neighbors i).Nodup)

theorem get_nodes_set_edge_weight (g : Graph Color Int) (x y : Nat) (w : Int) :
    (g.set_edge_weight x y w).get_nodes = g.get_nodes := by
  simp [Graph.set_edge_weight, Graph.get_nodes, length_updAt]

theorem get_nodes_add_edge (g : Graph Color Int) (x y : Nat) (w : Int) :
    (g.add_edge x y w).get_nodes = g.get_nodes := by
  unfold Graph.add_edge
  split_ifs with h
  · exact get_nodes_set_edge_weight g x y w
  · simp [Graph.get_nodes, length_updAt]

theorem get_neighbors_add_edge_other (g : Graph Color Int) (x y : Nat) (w : Int)
    (i : Nat) (hix : i ≠ x) (hiy : i ≠ y) (hadj : g.is_adjacent x y = false) :
    (g.add_edge x y w).get_neighbors i = g.get_neighbors i := by
  unfold Graph.add_edge
  rw [hadj]
  simp only [Bool.false_eq_true, if_false]
  unfold Graph.get_neighbors
  rw [get?_updAt_ne _ _ _ _ hiy, get?_updAt_ne _ _ _ _ hix]

theorem add_edge_adj (N : Nat) (g : Graph Color Int) (x y : Nat) (w : Int)
    (hx : x < N) (hy : y < N) (hxy : x ≠ y) (hinv : GInv N g) :
    (∀ i j, j ∈ (g.add_edge x y w).get_neighbors i ↔
      (j ∈ g.get_neighbors i ∨ edgePair x y i j)) ∧ GInv N (g.add_edge x y w) := by
  obtain ⟨hnodes, hsym, hnodup⟩ := hinv
  by_cases hadj : g.is_adjacent x y = true
  · have heq : g.add_edge x y w = g.set_edge_weight x y w :=
      add_edge_eq_set_of_adjacent _ _ _ _ hadj
    have hmx : y ∈ g.get_neighbors x := (is_adjacent_iff_mem g x y).mp hadj
    have hmy : x ∈ g.get_neighbors y := (hsym x y).mp hmx
    have hiff : ∀ i j, j ∈ (g.add_edge x y w).get_neighbors i ↔
        (j ∈ g.get_neighbors i ∨ edgePair x y i j) := by
      intro i j
      rw [heq, get_neighbors_set_edge_weight]
      constructor
      · exact Or.inl
      · rintro (h | ⟨rfl, rfl⟩ | ⟨rfl, rfl⟩)
        · exact h
        · exact hmx
        · exact hmy
    refine ⟨hiff, ?_, ?_, ?_⟩
    · rw [heq, get_nodes_set_edge_weight]; exact hnodes
    · intro i j
      rw [heq, get_neighbors_set_edge_weight, get_neighbors_set_edge_weight]
      exact hsym i j
    · intro i
      rw [heq, get_neighbors_set_edge_weight]
      exact hnodup i
  · have hadjF : g.is_adjacent x y = false := by simpa using hadj
    have hnmx : y ∉ g.get_neighbors x := fun hm => hadj ((is_adjacent_iff_mem g x y).mpr hm)
    have hnmy : x ∉ g.get_neighbors y := fun hm => hnmx ((hsym y x).mp hm)
    have hn1x : (g.add_edge x y w).get_neighbors x = g.get_neighbors x ++ [y] :=
      get_neighbors_add_edge_fresh_self g x y w (by omega) hxy hadjF
    have hn1y : (g.add_edge x y w).get_neighbors y = g.get_neighbors y ++ [x] :=
      get_neighbors_add_edge_fresh_symm g x y w (by omega) hxy hadjF
    have hiff : ∀ i j, j ∈ (g.add_edge x y w).get_neighbors i ↔
        (j ∈ g.get_neighbors i ∨ edgePair x y i j) := by
      intro i j
      by_cases hix : i = x
      · subst hix
        rw [hn1x]
        simp [edgePair, List.mem_append, hxy]
      · by_cases hiy : i = y
        · subst hiy
          rw [hn1y]
          simp [edgePair, List.mem_append, Ne.symm hxy]
        · rw [get_neighbors_add_edge_other g x y w i hix hiy hadjF]
          simp [edgePair, hix, hiy]
    refine ⟨hiff, ?_, ?_, ?_⟩
    · rw [get_nodes_add_edge]; exact hnodes
    · intro i j
      rw [hiff i j, hiff j i, edgePair_symm]
      rw [hsym i j]
    · intro i
      by_cases hix : i = x
      · subst hix
        rw [hn1x, List.nodup_append]
        refine ⟨hnodup _, List.nodup_singleton y, ?_⟩
        intro a ha hay
        rw [List.mem_singleton] at hay
        subst hay
        exact hnmx ha
      · by_cases hiy : i = y
        · subst hiy
          rw [hn1y, List.nodup_append]
          refine ⟨hnodup _, List.nodup_singleton x, ?_⟩
          intro a ha hax
          rw [List.mem_singleton] at hax
          subst hax
          exact hnmy ha
        · rw [get_neighbors_add_edge_other g x y w i hix hiy hadjF]
          exact hnodup i

theorem cond_add_edge_adj (N : Nat) (g : Graph Color Int) (x y : Nat) (w : Int)
    (cond : Prop) [Decidable cond] (hx : cond → x < N) (hy : cond → y < N)
    (hxy : cond → x ≠ y) (hinv : GInv N g) :
    (∀ i j, j ∈ (if cond then g.add_edge x y w else g).get_neighbors i ↔
      (j ∈ g.get_neighbors i ∨ (cond ∧ edgePair x y i j))) ∧
    GInv N (if cond then g.add_edge x y w else g) := by
  split_ifs with h
  · have key := add_edge_adj N g x y w (hx h) (hy h) (hxy h) hinv
    exact ⟨fun i j => by rw [key.1 i j]; simp [h], key.2⟩
  · exact ⟨fun i j => by simp [h], hinv⟩

theorem foldl_range_adj (N : Nat) (n : Nat)
    (step : Graph Color Int → Nat → Graph Color Int) (P : Nat → Nat → Nat → Prop)
    (hstep : ∀ g k, k < n → GInv N g →
      (∀ i j, j ∈ (step g k).get_neighbors i ↔ (j ∈ g.get_neighbors i ∨ P k i j)) ∧
      GInv N (step g k)) :
    ∀ g, GInv N g →
      (∀ i j, j ∈ ((List.range n).foldl step g).get_neighbors i ↔
        (j ∈ g.get_neighbors i ∨ ∃ k, k < n ∧ P k i j)) ∧
      GInv N ((List.range n).foldl step g) := by
  induction n with
  | zero => intro g hg; exact ⟨by simp, hg⟩
  | succ m ih =>
    intro g hg
    rw [List.range_succ, List.foldl_append, List.foldl_cons, List.foldl_nil]
    have ihm := ih (fun g2 k hk hg2 => hstep g2 k (by omega) hg2) g hg
    have hs := hstep ((List.range m).foldl step g) m (by omega) ihm.2
    constructor
    · intro i j
      rw [hs.1 i j, ihm.1 i j]
      constructor
      · rintro ((h | ⟨k2, hk2, hp⟩) | hp)
        · exact Or.inl h
        · exact Or.inr ⟨k2, by omega, hp⟩
        · exact Or.inr ⟨m, by omega, hp⟩
      · rintro (h | ⟨k2, hk2, hp⟩)
        · exact Or.inl (Or.inl h)
        · by_cases hk2m : k2 = m
          · subst hk2m; exact Or.inr hp
          · exact Or.inl (Or.inr ⟨k2, by omega, hp⟩)
    · exact hs.2

/-- Edges contributed by the wiring body for absolute cell `(row,col)`. -/
def cellGen (d row col i j : Nat) : Prop :=
  (col < d - 1 ∧
    edgePair (transposeIdx 0 0 d row col) (transposeIdx 0 0 d row (col + 1)) i j) ∨
  (row < d - 1 ∧
    edgePair (transposeIdx 0 0 d row col) (transposeIdx 0 0 d (row + 1) col) i j) ∨
  ((0 < col ∧ row < d - 1) ∧
    edgePair (transposeIdx 0 0 d row col) (transposeIdx 0 0 d (row + 1) (col - 1)) i j)

/-- Edges contributed by one outer-loop iteration (all cells of `row` plus
the explicit last-column vertical edge). -/
def rowGen (d row i j : Nat) : Prop :=
  (∃ col, col < d ∧ cellGen d row col i j) ∨
  (row < d - 1 ∧
    edgePair (transposeIdx 0 0 d row (d - 1)) (transposeIdx 0 0 d (row + 1) (d - 1)) i j)

/-- All edges the wiring loop creates. -/
def hexGen (d i j : Nat) : Prop := ∃ row, row < d ∧ rowGen d row i j

theorem wireCell_adj (d : Nat) (hd : 2 ≤ d) (g : Graph Color Int) (row col : Nat)
    (hrow : row < d) (hcol : col < d) (hinv : GInv (d * d) g) :
    (∀ i j, j ∈ (wireCell d g row col).get_neighbors i ↔
      (j ∈ g.get_neighbors i ∨ cellGen d row col i j)) ∧
    GInv (d * d) (wireCell d g row col) := by
  have h1 := cond_add_edge_adj (d * d) g (transposeIdx 0 0 d row col)
    (transposeIdx 0 0 d row (col + 1)) 1 (col < d - 1)
    (fun _ => transposeIdx_lt d row col hrow hcol)
    (fun h => transposeIdx_lt d row (col + 1) hrow (by omega))
    (fun h => by
      rw [Ne, transposeIdx_inj d row col row (col + 1) hcol (by omega)]
      omega) hinv
  have h2 := cond_add_edge_adj (d * d)
    (if col < d - 1 then
      g.add_edge (transposeIdx 0 0 d row col) (transposeIdx 0 0 d row (col + 1)) 1
    else g)
    (transposeIdx 0 0 d row col) (transposeIdx 0 0 d (row + 1) col) 1 (row < d - 1)
    (fun _ => transposeIdx_lt d row col hrow hcol)
    (fun h => transposeIdx_lt d (row + 1) col (by omega) hcol)
    (fun h => by
      rw [Ne, transposeIdx_inj d row col (row + 1) col hcol hcol]
      omega) h1.2
  have h3 := cond_add_edge_adj (d * d)
    (if row < d - 1 then
      (if col < d - 1 then
        g.add_edge (transposeIdx 0 0 d row col) (transposeIdx 0 0 d row (col + 1)) 1
      else g).add_edge (transposeIdx 0 0 d row col) (transposeIdx 0 0 d (row + 1) col) 1
    else
      (if col < d - 1 then
        g.add_edge (transposeIdx 0 0 d row col) (transposeIdx 0 0 d row (col + 1)) 1
      else g))
    (transposeIdx 0 0 d row col) (transposeIdx 0 0 d (row + 1) (col - 1)) 1
    (0 < col ∧ row < d - 1)
    (fun _ => transposeIdx_lt d row col hrow hcol)
    (fun h => transposeIdx_lt d (row + 1) (col - 1) (by omega) (by omega))
    (fun h => by
      rw [Ne, transposeIdx_inj d row col (row + 1) (col - 1) hcol (by omega)]
      omega) h2.2
  have hwc : wireCell d g row col =
      (if 0 < col ∧ row < d - 1 then
        (if row < d - 1 then
          (if col < d - 1 then
            g.add_edge (transposeIdx 0 0 d row col) (transposeIdx 0 0 d row (col + 1)) 1
          else g).add_edge (transposeIdx 0 0 d row col) (transposeIdx 0 0 d (row + 1) col) 1
        else
          (if col < d - 1 then
            g.add_edge (transposeIdx 0 0 d row col) (transposeIdx 0 0 d row (col + 1)) 1
          else g)).add_edge (transposeIdx 0 0 d row col)
            (transposeIdx 0 0 d (row + 1) (col - 1)) 1
      else
        (if row < d - 1 then
          (if col < d - 1 then
            g.add_edge (transposeIdx 0 0 d row col) (transposeIdx 0 0 d row (col + 1)) 1
          else g).add_edge (transposeIdx 0 0 d row col) (transposeIdx 0 0 d (row + 1) col) 1
        else
          (if col < d - 1 then
            g.add_edge (transposeIdx 0 0 d row col) (transposeIdx 0 0 d row (col + 1)) 1
          else g))) := rfl
  rw [hwc]
  constructor
  · intro i j
    rw [h3.1 i j, h2.1 i j, h1.1 i j]
    unfold cellGen
    tauto
  · exact h3.2

theorem wireRow_adj (d : Nat) (hd : 2 ≤ d) (g : Graph Color Int) (row : Nat)
    (hrow : row < d) (hinv : GInv (d * d) g) :
    (∀ i j, j ∈ (wireRow d g row).get_neighbors i ↔
      (j ∈ g.get_neighbors i ∨ rowGen d row i j)) ∧
    GInv (d * d) (wireRow d g row) := by
  have hfold := foldl_range_adj (d * d) d (fun h col => wireCell d h row col)
    (fun col i j => cellGen d row col i j)
    (fun g2 col hcol hg2 => wireCell_adj d hd g2 row col hrow hcol hg2) g hinv
  have hextra := cond_add_edge_adj (d * d)
    ((List.range d).foldl (fun h col => wireCell d h row col) g)
    (transposeIdx 0 0 d row (d - 1)) (transposeIdx 0 0 d (row + 1) (d - 1)) 1
    (row < d - 1)
    (fun _ => transposeIdx_lt d row (d - 1) hrow (by omega))
    (fun h => transposeIdx_lt d (row + 1) (d - 1) (by omega) (by omega))
    (fun h => by
      rw [Ne, transposeIdx_inj d row (d - 1) (row + 1) (d - 1) (by omega) (by omega)]
      omega) hfold.2
  have hwr : wireRow d g row =
      (if row < d - 1 then
        ((List.range d).foldl (fun h col => wireCell d h row col) g).add_edge
          (transposeIdx 0 0 d row (d - 1)) (transposeIdx 0 0 d (row + 1) (d - 1)) 1
      else (List.range d).foldl (fun h col => wireCell d h row col) g) := rfl
  rw [hwr]
  constructor
  · intro i j
    rw [hextra.1 i j, hfold.1 i j]
    unfold rowGen
    constructor
    · rintro ((h | ⟨k, hk, hp⟩) | hp)
      · exact Or.inl h
      · exact Or.inr (Or.inl ⟨k, hk, hp⟩)
      · exact Or.inr (Or.inr hp)
    · rintro (h | ⟨k, hk, hp⟩ | hp)
      · exact Or.inl (Or.inl h)
      · exact Or.inl (Or.inr ⟨k, hk, hp⟩)
      · exact Or.inr hp
  · exact hextra.2

theorem wireAll_adj (d : Nat) (hd : 2 ≤ d) (g : Graph Color Int) (hinv : GInv (d * d) g) :
    (∀ i j, j ∈ (wireAll d g).get_neighbors i ↔
      (j ∈ g.get_neighbors i ∨ hexGen d i j)) ∧
    GInv (d * d) (wireAll d g) := by
  unfold wireAll
  have hfold := foldl_range_adj (d * d) d (wireRow d) (fun row i j => rowGen d row i j)
    (fun g2 row hr hg2 => wireRow_adj d hd g2 row hr hg2) g hinv
  refine ⟨fun i j => ?_, hfold.2⟩
  rw [hfold.1 i j]
  unfold hexGen
  constructor
  · rintro (h | ⟨k, hk, hp⟩)
    · exact Or.inl h
    · exact Or.inr ⟨k, hk, hp⟩
  · rintro (h | ⟨k, hk, hp⟩)
    · exact Or.inl h
    · exact Or.inr ⟨k, hk, hp⟩

theorem key_set_weight (v : Vertex Color Int) (n : Nat) (w : Int) :
    (v.set_weight n w).key = v.key := rfl

theorem get_vertex_key_set_edge_weight (g : Graph Color Int) (x y : Nat) (w : Int)
    (i : Nat) : (g.set_edge_weight x y w).get_vertex_key i = g.get_vertex_key i := by
  unfold Graph.set_edge_weight Graph.get_vertex_key
  by_cases hiy : i = y
  · subst hiy
    rw [get?_updAt_self']
    by_cases hix : i = x
    · subst hix
      rw [get?_updAt_self']
      cases g.vlist.get? i <;> simp [key_set_weight]
    · rw [get?_updAt_ne _ _ _ _ hix]
      cases g.vlist.get? i <;> simp [key_set_weight]
  · rw [get?_updAt_ne _ _ _ _ hiy]
    by_cases hix : i = x
    · subst hix
      rw [get?_updAt_self']
      cases g.vlist.get? i <;> simp [key_set_weight]
    · rw [get?_updAt_ne _ _ _ _ hix]

theorem get_vertex_key_add_edge (g : Graph Color Int) (x y : Nat) (w : Int)
    (i : Nat) : (g.add_edge x y w).get_vertex_key i = g.get_vertex_key i := by
  unfold Graph.add_edge
  split_ifs with h
  · exact get_vertex_key_set_edge_weight g x y w i
  · show (Graph.get_vertex_key ⟨g.nedges + 1, _⟩ i) = _
    unfold Graph.get_vertex_key
    by_cases hiy : i = y
    · subst hiy
      rw [get?_updAt_self']
      by_cases hix : i = x
      · subst hix
        rw [get?_updAt_self']
        cases g.vlist.get? i <;> simp [Vertex.add]
      · rw [get?_updAt_ne _ _ _ _ hix]
        cases g.vlist.get? i <;> simp [Vertex.add]
    · rw [get?_updAt_ne _ _ _ _ hiy]
      by_cases hix : i = x
      · subst hix
        rw [get?_updAt_self']
        cases g.vlist.get? i <;> simp [Vertex.add]
      · rw [get?_updAt_ne _ _ _ _ hix]

theorem wireCell_key (d : Nat) (g : Graph Color Int) (row col : Nat) (i : Nat) :
    (wireCell d g row col).get_vertex_key i = g.get_vertex_key i := by
  unfold wireCell
  split_ifs <;> simp [get_vertex_key_add_edge]

theorem foldl_range_key (n : Nat) (step : Graph Color Int → Nat → Graph Color Int)
    (hstep : ∀ g k i, (step g k).get_vertex_key i = g.get_vertex_key i) :
    ∀ (g : Graph Color Int) (i : Nat),
      ((List.range n).foldl step g).get_vertex_key i = g.get_vertex_key i := by
  induction n with
  | zero => intro g i; rfl
  | succ m ih =>
    intro g i
    rw [List.range_succ, List.foldl_append, List.foldl_cons, List.foldl_nil, hstep, ih]

theorem wireRow_key (d : Nat) (g : Graph Color Int) (row : Nat) (i : Nat) :
    (wireRow d g row).get_vertex_key i = g.get_vertex_key i := by
  unfold wireRow
  split_ifs with h
  · rw [get_vertex_key_add_edge]
    exact foldl_range_key d _ (fun g2 col => wireCell_key d g2 row col) g i
  · exact foldl_range_key d _ (fun g2 col => wireCell_key d g2 row col) g i

theorem wireAll_key (d : Nat) (g : Graph Color Int) (i : Nat) :
    (wireAll d g).get_vertex_key i = g.get_vertex_key i :=
  foldl_range_key d _ (fun g2 row => wireRow_key d g2 row) g i

theorem mkHexBoard_g (dim : Nat) : (mkHexBoard dim).g =
    wireAll (dim + 2) (paintAll (dim + 2) (initVertices (dim + 2) Graph.empty)) := rfl

theorem mkHexBoard_dims (dim : Nat) :
    (mkHexBoard dim).abs_dim = dim + 2 ∧ (mkHexBoard dim).rel_dim = dim ∧
    (mkHexBoard dim).p1_turn = true := ⟨rfl, rfl, rfl⟩

theorem mkHexBoard_base_inv (dim : Nat) :
    GInv ((dim + 2) * (dim + 2)) (paintAll (dim + 2) (initVertices (dim + 2) Graph.empty)) := by
  refine ⟨?_, ?_, ?_⟩
  · rw [paintAll_nodes, initVertices_nodes]
  · intro i j
    rw [paintAll_neighbors, paintAll_neighbors, initVertices_neighbors, initVertices_neighbors]
    simp
  · intro i
    rw [paintAll_neighbors, initVertices_neighbors]
    exact List.nodup_nil

theorem mkHexBoard_adj (dim : Nat) :
    (∀ i j, j ∈ (mkHexBoard dim).g.get_neighbors i ↔ hexGen (dim + 2) i j) ∧
    GInv ((dim + 2) * (dim + 2)) (mkHexBoard dim).g := by
  have hw := wireAll_adj (dim + 2) (by omega) _ (mkHexBoard_base_inv dim)
  rw [mkHexBoard_g]
  refine ⟨fun i j => ?_, hw.2⟩
  rw [hw.1 i j, paintAll_neighbors, initVertices_neighbors]
  simp

theorem mkHexBoard_key (dim : Nat) (r c : Nat) (hr : r < dim + 2) (hc : c < dim + 2) :
    (mkHexBoard dim).g.get_vertex_key (transposeIdx 0 0 (dim + 2) r c) =
      some (initLabel (dim + 2) r c) := by
  rw [mkHexBoard_g, wireAll_key]
  exact paintAll_key (dim + 2) (by omega) _ (initVertices_nodes (dim + 2) Graph.empty)
    (fun r2 c2 hr2 hc2 => initVertices_key (dim + 2) Graph.empty _
      (transposeIdx_lt (dim + 2) r2 c2 hr2 hc2)) r c hr hc

/-- Full description of the neighbors a wired cell gets: right, left,
down, up, down-left diagonal, up-right diagonal. -/
theorem hexGen_iff (d : Nat) (hd : 2 ≤ d) (a b : Nat) (ha : a < d) (hb : b < d)
    (w : Nat) :
    hexGen d (transposeIdx 0 0 d a b) w ↔
      ((b + 1 < d ∧ w = transposeIdx 0 0 d a (b + 1)) ∨
       (0 < b ∧ w = transposeIdx 0 0 d a (b - 1)) ∨
       (a + 1 < d ∧ w = transposeIdx 0 0 d (a + 1) b) ∨
       (0 < a ∧ w = transposeIdx 0 0 d (a - 1) b) ∨
       (a + 1 < d ∧ 0 < b ∧ w = transposeIdx 0 0 d (a + 1) (b - 1)) ∨
       (0 < a ∧ b + 1 < d ∧ w = transposeIdx 0 0 d (a - 1) (b + 1))) := by
  constructor
  · rintro ⟨row, hrow, hgen⟩
    rcases hgen with ⟨col, hcol, hcg⟩ | ⟨hr1, hep⟩
    · rcases hcg with ⟨hc1, hep⟩ | ⟨hr1, hep⟩ | ⟨⟨hc0, hr1⟩, hep⟩
      · rcases hep with ⟨he1, he2⟩ | ⟨he1, he2⟩
        · obtain ⟨rfl, rfl⟩ := (transposeIdx_inj d a b row col hb (by omega)).mp he1
          exact Or.inl ⟨by omega, he2⟩
        · obtain ⟨ha2, hb2⟩ := (transposeIdx_inj d a b row (col + 1) hb (by omega)).mp he1
          refine Or.inr (Or.inl ⟨by omega, ?_⟩)
          rw [he2, ha2]
          congr 1 <;> omega
      · rcases hep with ⟨he1, he2⟩ | ⟨he1, he2⟩
        · obtain ⟨rfl, rfl⟩ := (transposeIdx_inj d a b row col hb hcol).mp he1
          exact Or.inr (Or.inr (Or.inl ⟨by omega, he2⟩))
        · obtain ⟨ha2, rfl⟩ := (transposeIdx_inj d a b (row + 1) col hb hcol).mp he1
          refine Or.inr (Or.inr (Or.inr (Or.inl ⟨by omega, ?_⟩)))
          rw [he2, ha2]
          congr 1 <;> omega
      · rcases hep with ⟨he1, he2⟩ | ⟨he1, he2⟩
        · obtain ⟨rfl, rfl⟩ := (transposeIdx_inj d a b row col hb hcol).mp he1
          exact Or.inr (Or.inr (Or.inr (Or.inr (Or.inl ⟨by omega, hc0, he2⟩))))
        · obtain ⟨ha2, hb2⟩ :=
            (transposeIdx_inj d a b (row + 1) (col - 1) hb (by omega)).mp he1
          refine Or.inr (Or.inr (Or.inr (Or.inr (Or.inr ⟨by omega, by omega, ?_⟩))))
          rw [he2, ha2]
          congr 1 <;> omega
    · rcases hep with ⟨he1, he2⟩ | ⟨he1, he2⟩
      · obtain ⟨rfl, rfl⟩ := (transposeIdx_inj d a b row (d - 1) hb (by omega)).mp he1
        exact Or.inr (Or.inr (Or.inl ⟨by omega, he2⟩))
      · obtain ⟨ha2, rfl⟩ := (transposeIdx_inj d a b (row + 1) (d - 1) hb (by omega)).mp he1
        refine Or.inr (Or.inr (Or.inr (Or.inl ⟨by omega, ?_⟩)))
        rw [he2, ha2]
        congr 1 <;> omega
  · rintro (⟨hc, rfl⟩ | ⟨hc, rfl⟩ | ⟨hc, rfl⟩ | ⟨hc, rfl⟩ | ⟨hc1, hc2, rfl⟩ | ⟨hc1, hc2, rfl⟩)
    · exact ⟨a, ha, Or.inl ⟨b, hb, Or.inl ⟨by omega, Or.inl ⟨rfl, rfl⟩⟩⟩⟩
    · refine ⟨a, ha, Or.inl ⟨b - 1, by omega, Or.inl ⟨by omega, Or.inr ⟨?_, rfl⟩⟩⟩⟩
      congr 1 <;> omega
    · exact ⟨a, ha, Or.inl ⟨b, hb, Or.inr (Or.inl ⟨by omega, Or.inl ⟨rfl, rfl⟩⟩)⟩⟩
    · refine ⟨a - 1, by omega, Or.inl ⟨b, hb, Or.inr (Or.inl ⟨by omega, Or.inr ⟨?_, rfl⟩⟩)⟩⟩
      congr 1 <;> omega
    · exact ⟨a, ha, Or.inl ⟨b, hb, Or.inr (Or.inr ⟨⟨hc2, by omega⟩, Or.inl ⟨rfl, rfl⟩⟩)⟩⟩
    · refine ⟨a - 1, by omega, Or.inl ⟨b + 1, by omega,
        Or.inr (Or.inr ⟨⟨by omega, by omega⟩, Or.inr ⟨?_, ?_⟩⟩)⟩⟩
      · congr 1 <;> omega
      · congr 1 <;> omega

/-- Claim C8: after `reset_board` on any valid dimension, every interior
(playable) vertex — absolute coordinates `(i0+1, j0+1)` with
`i0, j0 < rel_dim` — has exactly six distinct neighbors: its horizontal
neighbors, its vertical neighbors, and the diagonal pair
`(row+1,col-1)`, `(row-1,col+1)`. -/
theorem c8_six_neighbors (dim : Nat) (hdim : 2 < dim) (i0 j0 : Nat)
    (hi : i0 < dim) (hj : j0 < dim) :
    ((mkHexBoard dim).g.get_neighbors (transposeIdx 0 0 (dim + 2) (i0 + 1) (j0 + 1))).Nodup ∧
    (∀ w, w ∈ (mkHexBoard dim).g.get_neighbors
        (transposeIdx 0 0 (dim + 2) (i0 + 1) (j0 + 1)) ↔
      w ∈ [transposeIdx 0 0 (dim + 2) (i0 + 1) (j0 + 2),
           transposeIdx 0 0 (dim + 2) (i0 + 1) j0,
           transposeIdx 0 0 (dim + 2) i0 (j0 + 1),
           transposeIdx 0 0 (dim + 2) (i0 + 2) (j0 + 1),
           transposeIdx 0 0 (dim + 2) (i0 + 2) j0,
           transposeIdx 0 0 (dim + 2) i0 (j0 + 2)]) := by
  have hadj := mkHexBoard_adj dim
  constructor
  · exact hadj.2.2.2 _
  · intro w
    rw [hadj.1, hexGen_iff (dim + 2) (by omega) (i0 + 1) (j0 + 1) (by omega) (by omega) w]
    have c1 : j0 + 1 + 1 < dim + 2 := by omega
    have c2 : 0 < j0 + 1 := by omega
    have c3 : i0 + 1 + 1 < dim + 2 := by omega
    have c4 : 0 < i0 + 1 := by omega
    simp only [c1, c2, c3, c4, true_and, and_true, Nat.add_sub_cancel,
      show j0 + 1 + 1 = j0 + 2 from rfl, show i0 + 1 + 1 = i0 + 2 from rfl,
      List.mem_cons, List.not_mem_nil, or_false]
    tauto

set_option maxRecDepth 100000 in
/-- Witness for C8: the center cell of a fresh 3x3 board. -/
theorem c8_six_neighbors_witness :
    2 < 3 ∧
    (((mkHexBoard 3).g.get_neighbors (transposeIdx 0 0 5 2 2)).Nodup ∧
     (∀ w, w ∈ (mkHexBoard 3).g.get_neighbors (transposeIdx 0 0 5 2 2) ↔
       w ∈ [transposeIdx 0 0 5 2 3, transposeIdx 0 0 5 2 1, transposeIdx 0 0 5 1 2,
            transposeIdx 0 0 5 3 2, transposeIdx 0 0 5 3 1, transposeIdx 0 0 5 1 3])) :=
  ⟨by decide, c8_six_neighbors 3 (by decide) 1 1 (by decide) (by decide)⟩

theorem rel_pos_as_abs (d r c : Nat) :
    transposeIdx 1 1 d r c = transposeIdx 0 0 d (r + 1) (c + 1) := by
  unfold transposeIdx; ring

/-- Every run of `play` either returns the board unchanged (the two error
cases) or colors exactly one playable vertex, flipping the turn exactly
when nobody won. -/
theorem play_cases (b : HexBoard) (rowi coli : Int) :
    (b.play rowi coli).2 = b ∨
    (∃ row col, row < b.rel_dim ∧ col < b.rel_dim ∧
      ((b.play rowi coli).2 = { b with g := b.g.set_vertex_key (b.rel_pos row col) b.get_current_player_symbol } ∨
       (b.play rowi coli).2 = { b with g := b.g.set_vertex_key (b.rel_pos row col) b.get_current_player_symbol, p1_turn := !b.p1_turn })) := by
  unfold HexBoard.play
  by_cases h1 : toU32 rowi < b.rel_dim ∧ toU32 coli < b.rel_dim
  · rw [if_neg (not_not_intro h1)]
    by_cases h2 : b.g.get_vertex_key (b.rel_pos (toU32 rowi) (toU32 coli)) ≠ some Color.WHITE
    · rw [if_pos h2]
      exact Or.inl rfl
    · rw [if_neg h2]
      refine Or.inr ⟨toU32 rowi, toU32 coli, h1.1, h1.2, ?_⟩
      unfold HexBoard.get_current_player_symbol
      unfold_let
      split_ifs <;> first | exact Or.inl rfl | exact Or.inr rfl
  · rw [if_pos h1]
    exact Or.inl rfl

/-- `start_game` repeatedly calls `play`; folding a move list. -/
def playMoves (b : HexBoard) (ms : List (Int × Int)) : HexBoard :=
  ms.foldl (fun b2 m => (b2.play m.1 m.2).2) b

theorem play_dims (b : HexBoard) (rowi coli : Int) :
    (b.play rowi coli).2.abs_dim = b.abs_dim ∧
    (b.play rowi coli).2.rel_dim = b.rel_dim := by
  rcases play_cases b rowi coli with h | ⟨row, col, _, _, h | h⟩ <;> rw [h] <;> exact ⟨rfl, rfl⟩

theorem play_margin_key (b : HexBoard) (rowi coli : Int) (i : Nat)
    (hnotrel : ∀ r c, r < b.rel_dim → c < b.rel_dim → i ≠ b.rel_pos r c) :
    (b.play rowi coli).2.g.get_vertex_key i = b.g.get_vertex_key i := by
  rcases play_cases b rowi coli with h | ⟨row, col, hrow, hcol, h | h⟩
  · rw [h]
  · rw [h]
    show (b.g.set_vertex_key (b.rel_pos row col) b.get_current_player_symbol).get_vertex_key i = _
    rw [get_vertex_key_set_vertex_key]
    simp [hnotrel row col hrow hcol]
  · rw [h]
    show (b.g.set_vertex_key (b.rel_pos row col) b.get_current_player_symbol).get_vertex_key i = _
    rw [get_vertex_key_set_vertex_key]
    simp [hnotrel row col hrow hcol]

theorem playMoves_margin_key (dim : Nat) (hdim : 2 < dim) (ms : List (Int × Int)) :
    (playMoves (mkHexBoard dim) ms).abs_dim = dim + 2 ∧
    (playMoves (mkHexBoard dim) ms).rel_dim = dim ∧
    (∀ r c, r < dim + 2 → c < dim + 2 → (r = 0 ∨ r = dim + 1 ∨ c = 0 ∨ c = dim + 1) →
      (playMoves (mkHexBoard dim) ms).g.get_vertex_key (transposeIdx 0 0 (dim + 2) r c) =
        some (initLabel (dim + 2) r c)) := by
  suffices key : ∀ (ms : List (Int × Int)) (b : HexBoard), b.abs_dim = dim + 2 →
      b.rel_dim = dim →
      (∀ r c, r < dim + 2 → c < dim + 2 → (r = 0 ∨ r = dim + 1 ∨ c = 0 ∨ c = dim + 1) →
        b.g.get_vertex_key (transposeIdx 0 0 (dim + 2) r c) = some (initLabel (dim + 2) r c)) →
      (playMoves b ms).abs_dim = dim + 2 ∧ (playMoves b ms).rel_dim = dim ∧
      (∀ r c, r < dim + 2 → c < dim + 2 → (r = 0 ∨ r = dim + 1 ∨ c = 0 ∨ c = dim + 1) →
        (playMoves b ms).g.get_vertex_key (transposeIdx 0 0 (dim + 2) r c) =
          some (initLabel (dim + 2) r c)) by
    refine key ms (mkHexBoard dim) rfl rfl ?_
    intro r c hr hc _
    exact mkHexBoard_key dim r c hr hc
  intro ms
  induction ms with
  | nil => intro b h1 h2 h3; exact ⟨h1, h2, h3⟩
  | cons m rest ih =>
    intro b h1 h2 h3
    show (playMoves (b.play m.1 m.2).2 rest).abs_dim = dim + 2 ∧ _
    refine ih (b.play m.1 m.2).2 (by rw [(play_dims b m.1 m.2).1, h1])
      (by rw [(play_dims b m.1 m.2).2, h2]) ?_
    intro r c hr hc hmargin
    rw [play_margin_key b m.1 m.2 _ ?_]
    · exact h3 r c hr hc hmargin
    · intro r2 c2 hr2 hc2
      unfold HexBoard.rel_pos
      rw [h1, rel_pos_as_abs, Ne,
        transposeIdx_inj (dim + 2) r c (r2 + 1) (c2 + 1) hc (by omega)]
      rw [h2] at hr2 hc2
      omega

/-- Claim C4: for every valid dimension (`rel_dim > 2`) and every sequence
of `play` calls, the four absolute-grid corner vertices are Blocked
(GRAY), every top- and bottom-margin-row vertex excluding corners is
Player B's color (RED), and every left- and right-margin-column vertex
excluding corners is Player A's color (BLUE); these hold immediately after
`reset_board` (`ms = []`) and are preserved by every play sequence. -/
theorem c4_margins (dim : Nat) (hdim : 2 < dim) (ms : List (Int × Int)) (r c : Nat)
    (hr : r < dim + 2) (hc : c < dim + 2) :
    ((r = 0 ∨ r = dim + 1) ∧ (c = 0 ∨ c = dim + 1) →
      (playMoves (mkHexBoard dim) ms).g.get_vertex_key (transposeIdx 0 0 (dim + 2) r c) =
        some Color.GRAY) ∧
    ((r = 0 ∨ r = dim + 1) ∧ ¬(c = 0 ∨ c = dim + 1) →
      (playMoves (mkHexBoard dim) ms).g.get_vertex_key (transposeIdx 0 0 (dim + 2) r c) =
        some Color.RED) ∧
    ((c = 0 ∨ c = dim + 1) ∧ ¬(r = 0 ∨ r = dim + 1) →
      (playMoves (mkHexBoard dim) ms).g.get_vertex_key (transposeIdx 0 0 (dim + 2) r c) =
        some Color.BLUE) := by
  have key := (playMoves_margin_key dim hdim ms).2.2
  refine ⟨?_, ?_, ?_⟩
  · rintro ⟨hrm, hcm⟩
    rw [key r c hr hc (by omega)]
    unfold initLabel
    split_ifs <;> first | rfl | omega
  · rintro ⟨hrm, hcm⟩
    rw [key r c hr hc (by omega)]
    unfold initLabel
    split_ifs <;> first | rfl | omega
  · rintro ⟨hcm, hrm⟩
    rw [key r c hr hc (by omega)]
    unfold initLabel
    split_ifs <;> first | rfl | omega

set_option maxRecDepth 100000 in
/-- Witness for C4: corner and margin cells of a 3x3 board after one play. -/
theorem c4_margins_witness :
    2 < 3 ∧
    (((0 : Nat) = 0 ∨ (0 : Nat) = 4) ∧ ((0 : Nat) = 0 ∨ (0 : Nat) = 4) →
      (playMoves (mkHexBoard 3) [(0, 0)]).g.get_vertex_key (transposeIdx 0 0 5 0 0) =
        some Color.GRAY) ∧
    (((0 : Nat) = 0 ∨ (0 : Nat) = 4) ∧ ¬((2 : Nat) = 0 ∨ (2 : Nat) = 4) →
      (playMoves (mkHexBoard 3) [(0, 0)]).g.get_vertex_key (transposeIdx 0 0 5 0 2) =
        some Color.RED) := by
  have h := c4_margins 3 (by decide) [(0, 0)] 0 0 (by decide) (by decide)
  have h2 := c4_margins 3 (by decide) [(0, 0)] 0 2 (by decide) (by decide)
  exact ⟨by decide, h.1, h2.2.1⟩

theorem mem_updAt (l : List α) (n : Nat) (f : α → α) (v : α) (hv : v ∈ updAt l n f) :
    v ∈ l ∨ ∃ w, w ∈ l ∧ v = f w := by
  induction l generalizing n with
  | nil => simp [updAt] at hv
  | cons x xs ih =>
    cases n with
    | zero =>
      rcases List.mem_cons.mp hv with h | h
      · exact Or.inr ⟨x, List.mem_cons_self x xs, h⟩
      · exact Or.inl (List.mem_cons_of_mem x h)
    | succ n' =>
      rcases List.mem_cons.mp hv with h | h
      · exact Or.inl (h ▸ List.mem_cons_self x xs)
      · rcases ih n' h with h2 | ⟨w, hw, hvw⟩
        · exact Or.inl (List.mem_cons_of_mem x h2)
        · exact Or.inr ⟨w, List.mem_cons_of_mem x hw, hvw⟩

theorem edges_in_range_set_vertex_key (g : Graph Color Int) (x : Nat) (c : Color)
    (h : g.edges_in_range) : (g.set_vertex_key x c).edges_in_range := by
  intro v hv e he
  rw [get_nodes_set_vertex_key]
  unfold Graph.set_vertex_key at hv
  rcases mem_updAt g.vlist x _ v hv with h2 | ⟨w, hw, rfl⟩
  · exact h v h2 e he
  · exact h w hw e he

theorem hexGen_lt (d i j : Nat) (h : hexGen d i j) : i < d * d ∧ j < d * d := by
  obtain ⟨row, hrow, hgen⟩ := h
  have bound : ∀ a b : Nat, a < d → b < d →
      transposeIdx 0 0 d a b < d * d := transposeIdx_lt d
  rcases hgen with ⟨col, hcol, hcg⟩ | ⟨hr1, hep⟩
  · rcases hcg with ⟨hc1, hep⟩ | ⟨hr1, hep⟩ | ⟨⟨hc0, hr1⟩, hep⟩ <;>
      rcases hep with ⟨rfl, rfl⟩ | ⟨rfl, rfl⟩ <;>
      exact ⟨bound _ _ (by omega) (by omega), bound _ _ (by omega) (by omega)⟩
  · rcases hep with ⟨rfl, rfl⟩ | ⟨rfl, rfl⟩ <;>
      exact ⟨bound _ _ (by omega) (by omega), bound _ _ (by omega) (by omega)⟩

theorem mkHexBoard_edges_in_range (dim : Nat) : (mkHexBoard dim).g.edges_in_range := by
  intro v hv e he
  obtain ⟨n, hn⟩ := List.mem_iff_get?.mp hv
  have hmem : e.neigh ∈ (mkHexBoard dim).g.get_neighbors n := by
    unfold Graph.get_neighbors
    rw [hn]
    exact List.mem_map.mpr ⟨e, he, rfl⟩
  have hgen := ((mkHexBoard_adj dim).1 n e.neigh).mp hmem
  have hlt := (hexGen_lt (dim + 2) n e.neigh hgen).2
  rw [(mkHexBoard_adj dim).2.1]
  exact hlt

theorem colorReach_chain (g : Graph Color Int) (sym : Color) (src : Nat)
    (f : Nat → Nat) (n : Nat) (h0 : ColorReach g sym src (f 0))
    (hstep : ∀ k, k < n → f (k + 1) ∈ g.get_neighbors (f k) ∧
      g.get_vertex_key (f (k + 1)) = some sym) :
    ColorReach g sym src (f n) := by
  induction n with
  | zero => exact h0
  | succ m ih =>
    have hm := hstep m (by omega)
    exact ColorReach.step (ih (fun k hk => hstep k (by omega))) hm.1 hm.2

/-- A fresh board on which Player A's color has been assigned to every
interior vertex of the full top-to-bottom straight (anti)diagonal —
relative cells `(i, rel_dim-1-i)`, absolute `(i+1, rel_dim-i)` — and every
other interior vertex is still Empty. -/
def diagBoard (dim : Nat) : HexBoard :=
  (List.range dim).foldl
    (fun b i => { b with g := b.g.set_vertex_key (transposeIdx 0 0 (dim + 2) (i + 1) (dim - i)) Color.BLUE })
    (mkHexBoard dim)

theorem diagBoard_fields (dim : Nat) :
    (diagBoard dim).abs_dim = dim + 2 ∧ (diagBoard dim).rel_dim = dim ∧
    (diagBoard dim).g.get_nodes = (dim + 2) * (dim + 2) ∧
    (∀ i, (diagBoard dim).g.get_neighbors i = (mkHexBoard dim).g.get_neighbors i) := by
  unfold diagBoard
  have key : ∀ (l : List Nat) (b : HexBoard),
      ((l.foldl (fun b2 i => { b2 with g := b2.g.set_vertex_key (transposeIdx 0 0 (dim + 2) (i + 1) (dim - i)) Color.BLUE }) b).abs_dim = b.abs_dim ∧
       (l.foldl (fun b2 i => { b2 with g := b2.g.set_vertex_key (transposeIdx 0 0 (dim + 2) (i + 1) (dim - i)) Color.BLUE }) b).rel_dim = b.rel_dim ∧
       (l.foldl (fun b2 i => { b2 with g := b2.g.set_vertex_key (transposeIdx 0 0 (dim + 2) (i + 1) (dim - i)) Color.BLUE }) b).g.get_nodes = b.g.get_nodes ∧
       (∀ i, (l.foldl (fun b2 i => { b2 with g := b2.g.set_vertex_key (transposeIdx 0 0 (dim + 2) (i + 1) (dim - i)) Color.BLUE }) b).g.get_neighbors i = b.g.get_neighbors i)) := by
    intro l
    induction l with
    | nil => intro b; exact ⟨rfl, rfl, rfl, fun _ => rfl⟩
    | cons x xs ih =>
      intro b
      rw [List.foldl_cons]
      have := ih { b with g := b.g.set_vertex_key (transposeIdx 0 0 (dim + 2) (x + 1) (dim - x)) Color.BLUE }
      refine ⟨this.1, this.2.1, ?_, ?_⟩
      · rw [this.2.2.1]
        exact get_nodes_set_vertex_key _ _ _
      · intro i
        rw [this.2.2.2 i]
        exact get_neighbors_set_vertex_key _ _ _ i
  have h := key (List.range dim) (mkHexBoard dim)
  exact ⟨h.1, h.2.1, by rw [h.2.2.1]; exact (mkHexBoard_adj dim).2.1, h.2.2.2⟩

theorem diagBoard_key (dim : Nat) (hdim : 2 < dim) (r c : Nat)
    (hr : r < dim + 2) (hc : c < dim + 2) :
    (diagBoard dim).g.get_vertex_key (transposeIdx 0 0 (dim + 2) r c) =
      if 1 ≤ r ∧ r ≤ dim ∧ r + c = dim + 1 then some Color.BLUE
      else some (initLabel (dim + 2) r c) := by
  unfold diagBoard
  have key : ∀ k, k ≤ dim →
      ((List.range k).foldl (fun b2 i => { b2 with g := b2.g.set_vertex_key (transposeIdx 0 0 (dim + 2) (i + 1) (dim - i)) Color.BLUE }) (mkHexBoard dim)).g.get_vertex_key (transposeIdx 0 0 (dim + 2) r c) =
        (if 1 ≤ r ∧ r ≤ k ∧ r + c = dim + 1 then some Color.BLUE
         else some (initLabel (dim + 2) r c)) := by
    intro k
    induction k with
    | zero =>
      intro _
      simp only [List.range_zero, List.foldl_nil]
      rw [mkHexBoard_key dim r c hr hc]
      have : ¬(1 ≤ r ∧ r ≤ 0 ∧ r + c = dim + 1) := by omega
      rw [if_neg this]
    | succ m ih =>
      intro hm
      rw [List.range_succ, List.foldl_append, List.foldl_cons, List.foldl_nil]
      show (Graph.set_vertex_key _ _ _).get_vertex_key _ = _
      rw [get_vertex_key_set_vertex_key]
      have hnodes : ((List.range m).foldl (fun b2 i => { b2 with g := b2.g.set_vertex_key (transposeIdx 0 0 (dim + 2) (i + 1) (dim - i)) Color.BLUE }) (mkHexBoard dim)).g.get_nodes = (dim + 2) * (dim + 2) := by
        have keyn : ∀ (l : List Nat) (b : HexBoard),
            (l.foldl (fun b2 i => { b2 with g := b2.g.set_vertex_key (transposeIdx 0 0 (dim + 2) (i + 1) (dim - i)) Color.BLUE }) b).g.get_nodes = b.g.get_nodes := by
          intro l
          induction l with
          | nil => intro b; rfl
          | cons x xs ih2 =>
            intro b
            rw [List.foldl_cons, ih2]
            exact get_nodes_set_vertex_key _ _ _
        rw [keyn]
        exact (mkHexBoard_adj dim).2.1
      rw [hnodes, ih (by omega)]
      simp only [transposeIdx_inj (dim + 2) r c (m + 1) (dim - m) hc (by omega)]
      have hb : transposeIdx 0 0 (dim + 2) (m + 1) (dim - m) < (dim + 2) * (dim + 2) :=
        transposeIdx_lt (dim + 2) (m + 1) (dim - m) (by omega) (by omega)
      simp only [hb, and_true]
      split_ifs <;> first | rfl | omega
  have h := key dim (by omega)
  rw [h]

theorem diagBoard_edges_in_range (dim : Nat) : (diagBoard dim).g.edges_in_range := by
  unfold diagBoard
  have key : ∀ (l : List Nat) (b : HexBoard), b.g.edges_in_range →
      (l.foldl (fun b2 i => { b2 with g := b2.g.set_vertex_key (transposeIdx 0 0 (dim + 2) (i + 1) (dim - i)) Color.BLUE }) b).g.edges_in_range := by
    intro l
    induction l with
    | nil => intro b h; exact h
    | cons x xs ih =>
      intro b h
      rw [List.foldl_cons]
      exact ih _ (edges_in_range_set_vertex_key _ _ _ h)
  exact key _ _ (mkHexBoard_edges_in_range dim)

/-- Claim C9: on a freshly reset board where Player A's color (BLUE) is
assigned to every interior vertex of the full top-to-bottom straight
diagonal of the playable area and every other interior vertex stays
Empty, `is_victory` with Player A's color returns true. -/
theorem c9_diag_victory (dim : Nat) (hdim : 2 < dim) :
    (diagBoard dim).is_victory Color.BLUE = true := by
  have hfields := diagBoard_fields dim
  rw [is_victory_iff_path (diagBoard dim) Color.BLUE (diagBoard_edges_in_range dim)]
  have hsrc : (diagBoard dim).victory_src Color.BLUE = transposeIdx 0 0 (dim + 2) 1 0 := by
    unfold HexBoard.victory_src HexBoard.abs_pos
    rw [if_pos rfl, hfields.1]
  have hdst : (diagBoard dim).victory_dst Color.BLUE =
      transposeIdx 0 0 (dim + 2) dim (dim + 1) := by
    unfold HexBoard.victory_dst HexBoard.abs_pos
    rw [if_pos rfl, hfields.1]
    congr 1 <;> omega
  rw [hsrc, hdst]
  have init_blue : ∀ r c : Nat, ¬(r = 0 ∨ r = dim + 1) → (c = 0 ∨ c = dim + 1) →
      initLabel (dim + 2) r c = Color.BLUE := by
    intro r c h1 h2
    unfold initLabel
    split_ifs <;> first | rfl | omega
  have keyWall : ∀ r c : Nat, 1 ≤ r → r ≤ dim → (c = 0 ∨ c = dim + 1) →
      ¬(r + c = dim + 1) →
      (diagBoard dim).g.get_vertex_key (transposeIdx 0 0 (dim + 2) r c) =
        some Color.BLUE := by
    intro r c h1 h2 hc hsum
    rw [diagBoard_key dim hdim r c (by omega) (by omega), if_neg (by omega),
      init_blue r c (by omega) hc]
  have keyDiag : ∀ r c : Nat, 1 ≤ r → r ≤ dim → r + c = dim + 1 →
      (diagBoard dim).g.get_vertex_key (transposeIdx 0 0 (dim + 2) r c) =
        some Color.BLUE := by
    intro r c h1 h2 hsum
    rw [diagBoard_key dim hdim r c (by omega) (by omega), if_pos ⟨h1, h2, hsum⟩]
  have hmem : ∀ a b w : Nat, a < dim + 2 → b < dim + 2 →
      ((b + 1 < dim + 2 ∧ w = transposeIdx 0 0 (dim + 2) a (b + 1)) ∨
       (0 < b ∧ w = transposeIdx 0 0 (dim + 2) a (b - 1)) ∨
       (a + 1 < dim + 2 ∧ w = transposeIdx 0 0 (dim + 2) (a + 1) b) ∨
       (0 < a ∧ w = transposeIdx 0 0 (dim + 2) (a - 1) b) ∨
       (a + 1 < dim + 2 ∧ 0 < b ∧ w = transposeIdx 0 0 (dim + 2) (a + 1) (b - 1)) ∨
       (0 < a ∧ b + 1 < dim + 2 ∧ w = transposeIdx 0 0 (dim + 2) (a - 1) (b + 1))) →
      w ∈ (diagBoard dim).g.get_neighbors (transposeIdx 0 0 (dim + 2) a b) := by
    intro a b w ha hb hcase
    rw [hfields.2.2.2]
    exact ((mkHexBoard_adj dim).1 _ _).mpr
      ((hexGen_iff (dim + 2) (by omega) a b ha hb w).mpr hcase)
  -- segment 1: down the left blue wall from (1,0) to (dim,0)
  have reachWL : ColorReach (diagBoard dim).g Color.BLUE
      (transposeIdx 0 0 (dim + 2) 1 0) (transposeIdx 0 0 (dim + 2) dim 0) := by
    have chain := colorReach_chain (diagBoard dim).g Color.BLUE
      (transposeIdx 0 0 (dim + 2) 1 0) (fun k => transposeIdx 0 0 (dim + 2) (k + 1) 0)
      (dim - 1) ColorReach.refl ?_
    · simp only [] at chain
      rw [show dim - 1 + 1 = dim from by omega] at chain
      exact chain
    · intro k hk
      simp only []
      constructor
      · exact hmem (k + 1) 0 _ (by omega) (by omega)
          (Or.inr (Or.inr (Or.inl ⟨by omega, rfl⟩)))
      · exact keyWall (k + 2) 0 (by omega) (by omega) (Or.inl rfl) (by omega)
  -- step onto the diagonal at (dim, 1)
  have reachD0 : ColorReach (diagBoard dim).g Color.BLUE
      (transposeIdx 0 0 (dim + 2) 1 0) (transposeIdx 0 0 (dim + 2) dim 1) := by
    refine ColorReach.step reachWL ?_ (keyDiag dim 1 (by omega) (by omega) (by omega))
    exact hmem dim 0 _ (by omega) (by omega) (Or.inl ⟨by omega, rfl⟩)
  -- segment 2: up the diagonal from (dim,1) to (1,dim)
  have reachDiag : ColorReach (diagBoard dim).g Color.BLUE
      (transposeIdx 0 0 (dim + 2) 1 0) (transposeIdx 0 0 (dim + 2) 1 dim) := by
    have chain := colorReach_chain (diagBoard dim).g Color.BLUE
      (transposeIdx 0 0 (dim + 2) 1 0)
      (fun k => transposeIdx 0 0 (dim + 2) (dim - k) (k + 1)) (dim - 1) ?_ ?_
    · simp only [] at chain
      rw [show dim - (dim - 1) = 1 from by omega, show dim - 1 + 1 = dim from by omega] at chain
      exact chain
    · show ColorReach _ _ _ (transposeIdx 0 0 (dim + 2) (dim - 0) (0 + 1))
      rw [show dim - 0 = dim from rfl]
      exact reachD0
    · intro k hk
      simp only []
      constructor
      · rw [show dim - (k + 1) = dim - k - 1 from by omega]
        exact hmem (dim - k) (k + 1) (transposeIdx 0 0 (dim + 2) (dim - k - 1) (k + 1 + 1))
          (by omega) (by omega)
          (Or.inr (Or.inr (Or.inr (Or.inr (Or.inr ⟨by omega, by omega, rfl⟩)))))
      · exact keyDiag (dim - (k + 1)) (k + 1 + 1) (by omega) (by omega) (by omega)
  -- step onto the right blue wall at (1, dim+1)
  have reachWRtop : ColorReach (diagBoard dim).g Color.BLUE
      (transposeIdx 0 0 (dim + 2) 1 0) (transposeIdx 0 0 (dim + 2) 1 (dim + 1)) := by
    refine ColorReach.step reachDiag ?_
      (keyWall 1 (dim + 1) (by omega) (by omega) (Or.inr rfl) (by omega))
    exact hmem 1 dim _ (by omega) (by omega) (Or.inl ⟨by omega, rfl⟩)
  -- segment 3: down the right wall from (1,dim+1) to (dim-1,dim+1)
  have reachWR : ColorReach (diagBoard dim).g Color.BLUE
      (transposeIdx 0 0 (dim + 2) 1 0) (transposeIdx 0 0 (dim + 2) (dim - 1) (dim + 1)) := by
    have chain := colorReach_chain (diagBoard dim).g Color.BLUE
      (transposeIdx 0 0 (dim + 2) 1 0)
      (fun k => transposeIdx 0 0 (dim + 2) (k + 1) (dim + 1)) (dim - 2) reachWRtop ?_
    · simp only [] at chain
      rw [show dim - 2 + 1 = dim - 1 from by omega] at chain
      exact chain
    · intro k hk
      simp only []
      constructor
      · exact hmem (k + 1) (dim + 1) _ (by omega) (by omega)
          (Or.inr (Or.inr (Or.inl ⟨by omega, rfl⟩)))
      · exact keyWall (k + 2) (dim + 1) (by omega) (by omega) (Or.inr rfl) (by omega)
  refine ⟨transposeIdx 0 0 (dim + 2) (dim - 1) (dim + 1), reachWR, ?_⟩
  have := hmem (dim - 1) (dim + 1) (transposeIdx 0 0 (dim + 2) (dim - 1 + 1) (dim + 1))
    (by omega) (by omega) (Or.inr (Or.inr (Or.inl ⟨by omega, rfl⟩)))
  rw [show dim - 1 + 1 = dim from by omega] at this
  exact this

set_option maxRecDepth 1000000 in
/-- Witness for C9 at dimension 3. -/
theorem c9_diag_victory_witness :
    2 < 3 ∧ (diagBoard 3).is_victory Color.BLUE = true :=
  ⟨by decide, c9_diag_victory 3 (by decide)⟩

/-- The selection loop of `AIMonteCarloPlayer::play`: scan the candidates
in order, keep `(winner, hiwins)`, replacing only on a strictly larger win
count; the initial sentinel is vertex 0 with 0 wins. `w v` is the win
count `simulate` returns for candidate `v` under the ambient RNG trace. -/
def aiSelect (fvert : List Nat) (w : Nat → Nat) : Nat × Nat :=
  fvert.foldl (fun st p => if st.2 < w p then (p, w p) else st) (0, 0)

/-- `AIMonteCarloPlayer::play` after the loop: the C++ version asserts
`winner != 0` (vertex 0 is never playable), aborting otherwise, and then
converts the winner to board coordinates. -/
def aiPlay (board : HexBoard) (fvert : List Nat) (w : Nat → Nat) : Option (Int × Int) :=
  if (aiSelect fvert w).1 = 0 then none
  else some (board.vertex_to_row_col (aiSelect fvert w).1)

/-- Modelled from the spec: the highest win count among the candidates. -/
def maxWins (fvert : List Nat) (w : Nat → Nat) : Nat :=
  fvert.foldr (fun v m => max (w v) m) 0

/-- Modelled from the spec: the candidate the claim says `play` chooses —
the earliest candidate (in enumeration order) attaining the strictly
highest win count. -/
def claimChoice (fvert : List Nat) (w : Nat → Nat) : Option Nat :=
  fvert.find? (fun v => w v == maxWins fvert w)

theorem maxWins_cons (v : Nat) (t : List Nat) (w : Nat → Nat) :
    maxWins (v :: t) w = max (w v) (maxWins t w) := rfl

theorem le_maxWins (l : List Nat) (w : Nat → Nat) (v : Nat) (hv : v ∈ l) :
    w v ≤ maxWins l w := by
  induction l with
  | nil => simp at hv
  | cons x t ih =>
    rw [maxWins_cons]
    rcases List.mem_cons.mp hv with rfl | h
    · exact Nat.le_max_left _ _
    · exact le_trans (ih h) (Nat.le_max_right _ _)

theorem aiSelect_go_ge (l : List Nat) (w : Nat → Nat) :
    ∀ acc : Nat × Nat, maxWins l w ≤ acc.2 →
      l.foldl (fun st p => if st.2 < w p then (p, w p) else st) acc = acc := by
  induction l with
  | nil => intro acc _; rfl
  | cons v t ih =>
    intro acc hle
    rw [maxWins_cons] at hle
    rw [List.foldl_cons, if_neg (by omega)]
    exact ih acc (by omega)

theorem aiSelect_go_spec (l : List Nat) (w : Nat → Nat) :
    ∀ acc : Nat × Nat, acc.2 < maxWins l w →
      ∃ v, l.find? (fun u => w u == maxWins l w) = some v ∧
        l.foldl (fun st p => if st.2 < w p then (p, w p) else st) acc =
          (v, maxWins l w) := by
  induction l with
  | nil =>
    intro acc h
    simp [maxWins] at h
  | cons v t ih =>
    intro acc hacc
    rw [maxWins_cons] at hacc
    by_cases hcase : maxWins t w ≤ w v
    · have hM : max (w v) (maxWins t w) = w v := Nat.max_eq_left hcase
      refine ⟨v, ?_, ?_⟩
      · rw [List.find?_cons]
        have : (w v == maxWins (v :: t) w) = true := by
          rw [maxWins_cons, hM]
          exact beq_self_eq_true (w v)
        rw [this]
      · rw [List.foldl_cons, if_pos (by omega)]
        have := aiSelect_go_ge t w (v, w v) (by simpa using hcase)
        rw [this, maxWins_cons, hM]
    · push_neg at hcase
      have hM : max (w v) (maxWins t w) = maxWins t w := Nat.max_eq_right (le_of_lt hcase)
      rw [hM] at hacc
      have hacc2 : (if acc.2 < w v then (v, w v) else acc).2 < maxWins t w := by
        split_ifs with h
        · exact hcase
        · exact hacc
      obtain ⟨u, hfind, hfold⟩ := ih
        (if acc.2 < w v then (v, w v) else acc) hacc2
      refine ⟨u, ?_, ?_⟩
      · rw [List.find?_cons]
        have : (w v == maxWins (v :: t) w) = false := by
          rw [maxWins_cons, hM, beq_eq_false_iff_ne]
          omega
        rw [this]
        rw [maxWins_cons, hM]
        exact hfind
      · rw [List.foldl_cons, maxWins_cons, hM]
        exact hfold

/-- Claim C6 fails as frozen: when every candidate's simulated win count
is zero (for example with `set_trials(0)`, or when every playout loses),
the loop never replaces the sentinel, so `play` keeps winner = 0 — which
is not a candidate — instead of choosing the earliest candidate, and the
trailing assertion aborts without producing a move. -/
theorem c6_counterexample :
    (aiSelect [5] (fun _ => 0)).1 = 0 ∧
    claimChoice [5] (fun _ => 0) = some 5 ∧
    ¬claimChoice [5] (fun _ => 0) = some (aiSelect [5] (fun _ => 0)).1 ∧
    aiPlay (mkHexBoard 3) [5] (fun _ => 0) = none := by
  exact ⟨rfl, rfl, by decide, by decide⟩

/-- Claim C6 (amended): for every non-empty free-vertex list in which
some candidate has a positive win count, the selection loop of
`AIMonteCarloPlayer::play` chooses the earliest candidate (in enumeration
order) whose win count equals the strictly highest win count — a later
candidate replaces the current choice only when its count is strictly
greater than every earlier candidate's; with all-zero win counts the
sentinel 0 is kept instead. -/
theorem c6_select (fvert : List Nat) (w : Nat → Nat)
    (hpos : ∃ v ∈ fvert, 0 < w v) :
    claimChoice fvert w = some (aiSelect fvert w).1 ∧
    (aiSelect fvert w).2 = maxWins fvert w := by
  obtain ⟨v0, hv0, hw0⟩ := hpos
  have hM : 0 < maxWins fvert w := lt_of_lt_of_le hw0 (le_maxWins fvert w v0 hv0)
  obtain ⟨u, hfind, hfold⟩ := aiSelect_go_spec fvert w (0, 0) (by simpa using hM)
  unfold aiSelect claimChoice
  rw [hfold]
  exact ⟨hfind, rfl⟩

/-- Witness for the amended C6 on a concrete candidate list. -/
theorem c6_select_witness :
    (∃ v ∈ [7, 9], 0 < v % 5) ∧
    (claimChoice [7, 9] (fun v => v % 5) = some (aiSelect [7, 9] (fun v => v % 5)).1 ∧
     (aiSelect [7, 9] (fun v => v % 5)).2 = maxWins [7, 9] (fun v => v % 5)) :=
  ⟨by decide, c6_select [7, 9] (fun v => v % 5) (by decide)⟩

/-- `HexBoard` inherits `set_vertex_key` from `Graph`. -/
def HexBoard.set_vertex_key (b : HexBoard) (x : Nat) (c : Color) : HexBoard :=
  { b with g := b.g.set_vertex_key x c }

theorem hb_set_nodes (b : HexBoard) (x : Nat) (c : Color) :
    (b.set_vertex_key x c).g.get_nodes = b.g.get_nodes :=
  get_nodes_set_vertex_key b.g x c

theorem hb_set_key (b : HexBoard) (x : Nat) (c : Color) (v : Nat) :
    (b.set_vertex_key x c).g.get_vertex_key v =
      if v = x ∧ x < b.g.get_nodes then some c else b.g.get_vertex_key v :=
  get_vertex_key_set_vertex_key b.g x c v

theorem lt_nodes_of_key_some (g : Graph Color Int) (v : Nat) (c : Color)
    (h : g.get_vertex_key v = some c) : v < g.get_nodes := by
  unfold Graph.get_vertex_key at h
  cases hg : g.vlist.get? v with
  | none => rw [hg] at h; simp at h
  | some vx =>
    have := List.get?_eq_some.mp hg
    exact this.1

theorem key_some_of_lt (g : Graph Color Int) (v : Nat) (h : v < g.get_nodes) :
    ∃ c, g.get_vertex_key v = some c := by
  unfold Graph.get_vertex_key
  cases hg : g.vlist.get? v with
  | none => exact absurd (List.get?_eq_none.mp hg) (by simpa [Graph.get_nodes] using h)
  | some vx => exact ⟨vx.key, rfl⟩

theorem clone_fold_props (og b0 : Graph Color Int) (hn : b0.get_nodes = og.get_nodes) :
    ∀ k, k ≤ og.get_nodes →
      ((List.range k).foldl (fun h i => match og.get_vertex_key i with
        | some c => h.set_vertex_key i c
        | none => h) b0).get_nodes = b0.get_nodes ∧
      (∀ v, ((List.range k).foldl (fun h i => match og.get_vertex_key i with
        | some c => h.set_vertex_key i c
        | none => h) b0).get_vertex_key v =
          if v < k then og.get_vertex_key v else b0.get_vertex_key v) := by
  intro k
  induction k with
  | zero => intro _; exact ⟨rfl, fun v => by simp⟩
  | succ m ih =>
    intro hm
    obtain ⟨ihn, ihk⟩ := ih (by omega)
    obtain ⟨c, hc⟩ := key_some_of_lt og m (by omega)
    rw [List.range_succ, List.foldl_append, List.foldl_cons, List.foldl_nil, hc]
    constructor
    · rw [get_nodes_set_vertex_key, ihn]
    · intro v
      rw [get_vertex_key_set_vertex_key, ihn, ihk v]
      by_cases hvm : v = m
      · subst hvm
        rw [if_pos ⟨rfl, by omega⟩, if_pos (by omega), hc]
      · rw [if_neg (by omega)]
        by_cases hlt : v < m
        · rw [if_pos hlt, if_pos (by omega)]
        · rw [if_neg hlt, if_neg (by omega)]

theorem clone_board_state_props (b other : HexBoard)
    (hn : b.g.get_nodes = other.g.get_nodes) :
    (b.clone_board_state other).g.get_nodes = b.g.get_nodes ∧
    (∀ v, v < other.g.get_nodes →
      (b.clone_board_state other).g.get_vertex_key v = other.g.get_vertex_key v) := by
  unfold HexBoard.clone_board_state
  have h := clone_fold_props other.g b.g hn other.g.get_nodes (le_refl _)
  exact ⟨h.1, fun v hv => by rw [h.2 v, if_pos hv]⟩

theorem foldl_set_white_props (l : List Nat) :
    ∀ b : HexBoard,
      ((l.foldl (fun h u => h.set_vertex_key u Color.WHITE) b)).g.get_nodes =
        b.g.get_nodes ∧
      (∀ v, ((l.foldl (fun h u => h.set_vertex_key u Color.WHITE) b)).g.get_vertex_key v =
        if v ∈ l ∧ v < b.g.get_nodes then some Color.WHITE
        else b.g.get_vertex_key v) := by
  induction l with
  | nil => intro b; exact ⟨rfl, fun v => by simp⟩
  | cons u us ih =>
    intro b
    rw [List.foldl_cons]
    obtain ⟨ihn, ihk⟩ := ih (b.set_vertex_key u Color.WHITE)
    rw [hb_set_nodes] at ihn ihk
    constructor
    · rw [ihn]
    · intro v
      rw [ihk v, hb_set_key]
      by_cases hlt : v < b.g.get_nodes
      · by_cases hvus : v ∈ us
        · rw [if_pos ⟨hvus, hlt⟩, if_pos ⟨List.mem_cons_of_mem u hvus, hlt⟩]
        · by_cases hvu : v = u
          · subst hvu
            rw [if_neg (show ¬(v ∈ us ∧ v < b.g.get_nodes) from fun hc => hvus hc.1),
              if_pos (show v = v ∧ v < b.g.get_nodes from ⟨rfl, hlt⟩),
              if_pos (show v ∈ v :: us ∧ v < b.g.get_nodes from
                ⟨List.mem_cons_self v us, hlt⟩)]
          · have hc3 : ¬(v ∈ u :: us ∧ v < b.g.get_nodes) := by
              rintro ⟨hmem, _⟩
              rcases List.mem_cons.mp hmem with h2 | h2
              · exact hvu h2
              · exact hvus h2
            rw [if_neg (show ¬(v ∈ us ∧ v < b.g.get_nodes) from fun hc => hvus hc.1),
              if_neg (show ¬(v = u ∧ u < b.g.get_nodes) from fun hc => hvu hc.1),
              if_neg hc3]
      · have hc2 : ¬(v = u ∧ u < b.g.get_nodes) := by
          rintro ⟨rfl, hun⟩
          exact hlt hun
        rw [if_neg (show ¬(v ∈ us ∧ v < b.g.get_nodes) from fun hc => hlt hc.2),
          if_neg hc2,
          if_neg (show ¬(v ∈ u :: us ∧ v < b.g.get_nodes) from fun hc => hlt hc.2)]

theorem foldl_fill_nodes (L : List (Nat × Nat)) (me op : Color) :
    ∀ b : HexBoard,
      ((L.foldl (fun h pr => h.set_vertex_key pr.2
        (if pr.1 % 2 = 0 then op else me)) b)).g.get_nodes = b.g.get_nodes := by
  induction L with
  | nil => intro b; rfl
  | cons x xs ih =>
    intro b
    rw [List.foldl_cons, ih, hb_set_nodes]

/-- One Monte Carlo trial of `AIMonteCarloPlayer::simulate`: shuffle the
remaining free positions (`sh i` models the `std::shuffle` call of trial
`i`, a permutation), fill them alternately starting with the opponent,
test victory for the mover, then revert every filled position to Empty.
The state is (current tmp order, scratch board, win count). -/
def trialStep (me op : Color) (sh : Nat → List Nat → List Nat)
    (st : List Nat × HexBoard × Nat) (i : Nat) : List Nat × HexBoard × Nat :=
  let t2 := sh i st.1
  let filled := (t2.enum).foldl
    (fun h pr => h.set_vertex_key pr.2 (if pr.1 % 2 = 0 then op else me)) st.2.1
  (t2, t2.foldl (fun h v => h.set_vertex_key v Color.WHITE) filled,
    if filled.is_victory me then st.2.2 + 1 else st.2.2)

/-- `AIMonteCarloPlayer::simulate`: build the playout pool, seed the
scratch board from the real one, fix the candidate move, run the trials,
revert the candidate, return the win count (and the scratch board, which
the C++ version keeps as a member). -/
def simulate (board gcopy : HexBoard) (curmove : Nat) (fvert : List Nat)
    (trials : Nat) (sh : Nat → List Nat → List Nat) : Nat × HexBoard :=
  let tmp := fvert.filter (fun v => v != curmove)
  let me := board.get_current_player_symbol
  let op := if me = Color.BLUE then Color.RED else Color.BLUE
  let g2 := (gcopy.clone_board_state board).set_vertex_key curmove me
  let res := (List.range trials).foldl (trialStep me op sh) (tmp, g2, 0)
  (res.2.2, res.2.1.set_vertex_key curmove Color.WHITE)

lemma trialStep_def (me op : Color) (sh : Nat → List Nat → List Nat)
    (st : List Nat × HexBoard × Nat) (i : Nat) :
    trialStep me op sh st i =
      (sh i st.1,
       (sh i st.1).foldl (fun h v => h.set_vertex_key v Color.WHITE)
         (((sh i st.1).enum).foldl
           (fun h pr => h.set_vertex_key pr.2 (if pr.1 % 2 = 0 then op else me)) st.2.1),
       if (((sh i st.1).enum).foldl
           (fun h pr => h.set_vertex_key pr.2 (if pr.1 % 2 = 0 then op else me)) st.2.1).is_victory me
       then st.2.2 + 1 else st.2.2) := rfl

theorem trial_fold_inv (me op : Color) (sh : Nat → List Nat → List Nat)
    (hsh : ∀ i l, (sh i l).Perm l) (tmp0 : List Nat) (b0 : HexBoard)
    (hrange : ∀ v ∈ tmp0, v < b0.g.get_nodes)
    (hwhite : ∀ v ∈ tmp0, b0.g.get_vertex_key v = some Color.WHITE) :
    ∀ n,
      ((List.range n).foldl (trialStep me op sh) (tmp0, b0, 0)).1.Perm tmp0 ∧
      ((List.range n).foldl (trialStep me op sh) (tmp0, b0, 0)).2.1.g.get_nodes =
        b0.g.get_nodes ∧
      ((List.range n).foldl (trialStep me op sh) (tmp0, b0, 0)).2.2 ≤ n ∧
      (∀ v ∈ tmp0, ((List.range n).foldl (trialStep me op sh) (tmp0, b0, 0)).2.1.g.get_vertex_key v =
        some Color.WHITE) := by
  intro n
  induction n with
  | zero => exact ⟨List.Perm.refl tmp0, rfl, Nat.le_refl 0, hwhite⟩
  | succ m ih =>
    obtain ⟨ihperm, ihnodes, ihwins, ihwhite⟩ := ih
    rw [List.range_succ, List.foldl_append, List.foldl_cons, List.foldl_nil,
      trialStep_def]
    have hperm2 : (sh m ((List.range m).foldl (trialStep me op sh) (tmp0, b0, 0)).1).Perm tmp0 :=
      (hsh m _).trans ihperm
    have hfillnodes : ((((sh m ((List.range m).foldl (trialStep me op sh) (tmp0, b0, 0)).1).enum).foldl (fun h pr => h.set_vertex_key pr.2 (if pr.1 % 2 = 0 then op else me)) ((List.range m).foldl (trialStep me op sh) (tmp0, b0, 0)).2.1)).g.get_nodes = b0.g.get_nodes := by
      rw [foldl_fill_nodes, ihnodes]
    have hundo := foldl_set_white_props
      (sh m ((List.range m).foldl (trialStep me op sh) (tmp0, b0, 0)).1)
      ((((sh m ((List.range m).foldl (trialStep me op sh) (tmp0, b0, 0)).1).enum).foldl (fun h pr => h.set_vertex_key pr.2 (if pr.1 % 2 = 0 then op else me)) ((List.range m).foldl (trialStep me op sh) (tmp0, b0, 0)).2.1))
    refine ⟨hperm2, ?_, ?_, ?_⟩
    · exact hundo.1.trans hfillnodes
    · show (if _ then _ + 1 else _) ≤ m + 1
      split_ifs with hvic
      · exact Nat.add_le_add_right ihwins 1
      · exact Nat.le_succ_of_le ihwins
    · intro v hv
      exact (hundo.2 v).trans
        (if_pos ⟨hperm2.mem_iff.mpr hv, by rw [hfillnodes]; exact hrange v hv⟩)

/-- C5: `AIMonteCarloPlayer::simulate` — for every candidate vertex, every
free-vertex list, and every trial count, provided the shuffle permutes its
input, the scratch board mirrors the game board, every free vertex is Empty
on the game board and the candidate is a valid vertex, `simulate` returns a
win count in `[0, trials]`, and on return every vertex of the playout pool
(free vertices other than the candidate) and the candidate itself are
labeled Empty (WHITE) on the scratch board. -/
theorem c5_simulate (board gcopy : HexBoard) (curmove : Nat) (fvert : List Nat)
    (trials : Nat) (sh : Nat → List Nat → List Nat)
    (hsh : ∀ i l, (sh i l).Perm l)
    (hn : gcopy.g.get_nodes = board.g.get_nodes)
    (hfree : ∀ v ∈ fvert, board.g.get_vertex_key v = some Color.WHITE)
    (hcur : curmove < board.g.get_nodes) :
    (simulate board gcopy curmove fvert trials sh).1 ≤ trials ∧
    ∀ v, (v ∈ fvert ∨ v = curmove) →
      (simulate board gcopy curmove fvert trials sh).2.g.get_vertex_key v =
        some Color.WHITE := by
  have htmp : ∀ v ∈ fvert.filter (fun v => v != curmove), v ∈ fvert ∧ v ≠ curmove := by
    intro v hv
    have hmf := List.mem_filter.mp hv
    refine ⟨hmf.1, ?_⟩
    simpa using hmf.2
  have hclone := clone_board_state_props gcopy board hn
  have hg2n : ((gcopy.clone_board_state board).set_vertex_key curmove
      board.get_current_player_symbol).g.get_nodes = board.g.get_nodes := by
    rw [hb_set_nodes, hclone.1, hn]
  have hrange : ∀ v ∈ fvert.filter (fun v => v != curmove),
      v < ((gcopy.clone_board_state board).set_vertex_key curmove
        board.get_current_player_symbol).g.get_nodes := by
    intro v hv
    rw [hg2n]
    exact lt_nodes_of_key_some board.g v Color.WHITE (hfree v (htmp v hv).1)
  have hwhite : ∀ v ∈ fvert.filter (fun v => v != curmove),
      ((gcopy.clone_board_state board).set_vertex_key curmove
        board.get_current_player_symbol).g.get_vertex_key v = some Color.WHITE := by
    intro v hv
    rw [hb_set_key]
    rw [if_neg (show ¬(v = curmove ∧ curmove <
        (gcopy.clone_board_state board).g.get_nodes) from by
      rintro ⟨rfl, _⟩; exact (htmp _ hv).2 rfl)]
    rw [hclone.2 v (lt_nodes_of_key_some board.g v Color.WHITE (hfree v (htmp v hv).1))]
    exact hfree v (htmp v hv).1
  have inv := trial_fold_inv board.get_current_player_symbol
    (if board.get_current_player_symbol = Color.BLUE then Color.RED else Color.BLUE) sh hsh
    (fvert.filter (fun v => v != curmove))
    ((gcopy.clone_board_state board).set_vertex_key curmove
      board.get_current_player_symbol) hrange hwhite trials
  refine ⟨inv.2.2.1, ?_⟩
  intro v hv
  show (((List.range trials).foldl (trialStep board.get_current_player_symbol
      (if board.get_current_player_symbol = Color.BLUE then Color.RED else Color.BLUE) sh)
      (fvert.filter (fun v => v != curmove),
        (gcopy.clone_board_state board).set_vertex_key curmove
          board.get_current_player_symbol, 0)).2.1.set_vertex_key curmove
      Color.WHITE).g.get_vertex_key v = some Color.WHITE
  rw [hb_set_key]
  by_cases hvc : v = curmove
  · rw [if_pos ⟨hvc, by rw [inv.2.1, hg2n]; exact hcur⟩]
  · rw [if_neg (show ¬_ from by rintro ⟨rfl, _⟩; exact hvc rfl)]
    rcases hv with hv | hv
    · exact inv.2.2.2 v (List.mem_filter.mpr ⟨hv, by simpa using hvc⟩)
    · exact absurd hv hvc

set_option maxRecDepth 100000 in
/-- Witness for C5: on the 3×3 board with candidate vertex 6, free list
`[6, 7]`, one trial and the identity shuffle, the win count is at most 1 and
vertices 6 and 7 end up Empty on the scratch board. -/
theorem c5_simulate_witness :
    (simulate (mkHexBoard 3) (mkHexBoard 3) 6 [6, 7] 1 (fun _ l => l)).1 ≤ 1 ∧
    ∀ v, (v ∈ [6, 7] ∨ v = 6) →
      (simulate (mkHexBoard 3) (mkHexBoard 3) 6 [6, 7] 1 (fun _ l => l)).2.g.get_vertex_key v =
        some Color.WHITE :=
  c5_simulate (mkHexBoard 3) (mkHexBoard 3) 6 [6, 7] 1 (fun _ l => l)
    (fun _ l => List.Perm.refl l) rfl (by decide) (by decide)
